import Mathlib

/-!
# Verification of the web-scraper core (`scripts/web_scraper.py`)

A shallow embedding of the scraper's pure core in Lean 4:

* the URL normalizer (`WebScraper.normalize_url`, `WebScraper.is_valid_url`),
  including a model of the CPython `urllib.parse` collaborator functions
  (`urlsplit`, `urlparse`, `urlunsplit`, `urlunparse`, `urljoin`) that the
  scraper calls.  Strings are modelled as `List Char`.  The model follows the
  classic CPython semantics; the control-character scrubbing added to
  `urlsplit` in recent CPython security patches (removal of `\t\r\n` and
  stripping of leading C0 controls) is not modelled, so the model agrees with
  CPython on URL strings free of those characters.
* the crawl traversal (`WebScraper.scrape`), with HTTP fetching plus
  HTML-to-markdown extraction abstracted as a `World` oracle and an explicit
  event trace recording visited-set insertions and fetches;
* the DOM-level extraction pipeline (`find_content_container`,
  `table_to_markdown`, `extract_markdown`, ...) over an explicit node tree,
  with the BeautifulSoup collaborator's `find`/`find_all`/`get_text`
  behaviour modelled directly.
-/

/-- Python strings are modelled as lists of characters. -/
abbrev Str := List Char

/-- Characters allowed in a URL scheme after the first (`scheme_chars` in
`urllib.parse`): ASCII letters, digits, `+`, `-`, `.`. -/
def schemeChar (c : Char) : Bool :=
  c.isAlphanum || c = '+' || c = '-' || c = '.'

/-- Python `str.lower` on ASCII data. -/
def lowerStr (s : Str) : Str := s.map Char.toLower

/-- Split a string at the first occurrence of `c`: returns the part before
and the part after (separator removed).  When `c` does not occur the whole
string is returned with an empty remainder — exactly the net effect of
CPython's `if c in url: url, rest = url.split(c, 1)`. -/
def splitAtChar (c : Char) (l : Str) : Str × Str :=
  (l.takeWhile (· ≠ c), (l.dropWhile (· ≠ c)).drop 1)

/-- Scheme detection step of CPython `urlsplit`: if the string contains a
`:` at position `i > 0`, the first character is an ASCII letter and every
character before the colon is a scheme character, the (lowercased) prefix is
the scheme; otherwise the default scheme is used and the string is left
untouched. -/
def splitScheme (url defscheme : Str) : Str × Str :=
  match url.findIdx? (· = ':') with
  | some i =>
    if 0 < i ∧ (url.headD ' ').isAlpha ∧ (url.take i).all schemeChar then
      (lowerStr (url.take i), url.drop (i + 1))
    else (defscheme, url)
  | none => (defscheme, url)

/-- Netloc detection step of CPython `urlsplit`: when the remainder starts
with `//`, the netloc extends to the next `/`, `?` or `#`. -/
def splitNetloc (rest : Str) : Str × Str :=
  match rest with
  | '/' :: '/' :: r =>
    (r.takeWhile (fun c => c ≠ '/' ∧ c ≠ '?' ∧ c ≠ '#'),
     r.dropWhile (fun c => c ≠ '/' ∧ c ≠ '?' ∧ c ≠ '#'))
  | _ => ([], rest)

/-- The result of `urllib.parse.urlparse`: six string components. -/
structure UrlParts where
  scheme : Str
  netloc : Str
  path : Str
  params : Str
  query : Str
  fragment : Str
deriving DecidableEq, Repr

/-- CPython `urlsplit` (with `allow_fragments=True`): detect the scheme,
split off the netloc after `//`, then the fragment at the first `#`, then
the query at the first `?`.  `params` is left empty here; `urlparse` fills
it. -/
def urlsplit (url defscheme : Str) : UrlParts :=
  let sr := splitScheme url defscheme
  let nr := splitNetloc sr.2
  let fr := splitAtChar '#' nr.2
  let qr := splitAtChar '?' fr.1
  ⟨sr.1, nr.1, qr.1, [], qr.2, fr.2⟩

/-- CPython `_splitparams`: when the path contains a `;`, split the params
off the last path segment (everything after the first `;` that follows the
last `/`). -/
def splitparams (p : Str) : Str × Str :=
  if p.contains ';' then
    if p.contains '/' then
      let lastseg := (p.reverse.takeWhile (· ≠ '/')).reverse
      let front := p.take (p.length - lastseg.length)
      if lastseg.contains ';' then
        (front ++ lastseg.takeWhile (· ≠ ';'),
         (lastseg.dropWhile (· ≠ ';')).drop 1)
      else (p, [])
    else (p.takeWhile (· ≠ ';'), (p.dropWhile (· ≠ ';')).drop 1)
  else (p, [])

/-- `urllib.parse.uses_params`. -/
def usesParams : List Str :=
  [[], "ftp".toList, "hdl".toList, "prospero".toList, "http".toList, "imap".toList,
   "https".toList, "shttp".toList, "rtsp".toList, "rtspu".toList, "sip".toList,
   "sips".toList, "mms".toList, "sftp".toList, "tel".toList]

/-- CPython `urlparse`: `urlsplit` plus the params split on the path, applied
only for schemes in `uses_params`. -/
def urlparse (url : Str) (defscheme : Str := []) : UrlParts :=
  let s := urlsplit url defscheme
  if s.scheme ∈ usesParams then
    let pr := splitparams s.path
    ⟨s.scheme, s.netloc, pr.1, pr.2, s.query, s.fragment⟩
  else
    ⟨s.scheme, s.netloc, s.path, [], s.query, s.fragment⟩

/-- CPython `urlunsplit`. -/
def urlunsplit (scheme netloc url query fragment : Str) : Str :=
  let url1 :=
    if netloc ≠ [] ∨ url.take 2 = ['/', '/'] then
      '/' :: '/' :: netloc ++ (if url ≠ [] ∧ url.take 1 ≠ ['/'] then '/' :: url else url)
    else url
  let url2 := if scheme ≠ [] then scheme ++ ':' :: url1 else url1
  let url3 := if query ≠ [] then url2 ++ '?' :: query else url2
  if fragment ≠ [] then url3 ++ '#' :: fragment else url3

/-- CPython `urlunparse`: reattach the params to the path, then `urlunsplit`. -/
def urlunparse (p : UrlParts) : Str :=
  urlunsplit p.scheme p.netloc
    (if p.params ≠ [] then p.path ++ ';' :: p.params else p.path) p.query p.fragment

/-- `urllib.parse.uses_relative`. -/
def usesRelative : List Str :=
  [[], "ftp".toList, "http".toList, "gopher".toList, "nntp".toList, "imap".toList,
   "wais".toList, "file".toList, "https".toList, "shttp".toList, "mms".toList,
   "prospero".toList, "rtsp".toList, "rtspu".toList, "sftp".toList, "svn".toList,
   "svn+ssh".toList, "ws".toList, "wss".toList]

/-- `urllib.parse.uses_netloc`. -/
def usesNetloc : List Str :=
  [[], "ftp".toList, "http".toList, "gopher".toList, "nntp".toList, "telnet".toList,
   "imap".toList, "wais".toList, "file".toList, "mms".toList, "https".toList,
   "shttp".toList, "snews".toList, "prospero".toList, "rtsp".toList, "rtspu".toList,
   "rsync".toList, "svn".toList, "svn+ssh".toList, "sftp".toList, "nfs".toList,
   "git".toList, "git+ssh".toList, "ws".toList, "wss".toList, "itms-services".toList]

/-- Python `'/'.join(...).split('/')` helper: split a string on every
occurrence of `c` (CPython `str.split(sep)`); always returns a nonempty
list of (possibly empty) chunks. -/
def splitOnChar (c : Char) : Str → List Str
  | [] => [[]]
  | x :: xs =>
    match splitOnChar c xs with
    | [] => [[x]]
    | h :: t => if x = c then [] :: h :: t else (x :: h) :: t

/-- The in-place slice assignment `segments[1:-1] = filter(None, segments[1:-1])`
from CPython `urljoin`: drop empty segments strictly between the first and
last elements. -/
def filterMid (l : List Str) : List Str :=
  match l with
  | [] => []
  | [a] => [a]
  | a :: rest => a :: ((rest.dropLast.filter (fun s => s ≠ [])) ++ [rest.getLastD []])

/-- The `..`/`.` resolution loop of CPython `urljoin`. -/
def resolveSegments (segments : List Str) : List Str :=
  let resolved := segments.foldl
    (fun acc seg =>
      if seg = ['.', '.'] then acc.dropLast
      else if seg = ['.'] then acc
      else acc ++ [seg]) []
  if segments.getLast? = some ['.'] ∨ segments.getLast? = some ['.', '.'] then
    resolved ++ [[]]
  else resolved

/-- CPython `urljoin(base, url)` (with `allow_fragments=True`). -/
def urljoin (base url : Str) : Str :=
  if base = [] then url
  else if url = [] then base
  else
    let b := urlparse base []
    let u := urlparse url b.scheme
    if u.scheme ≠ b.scheme ∨ u.scheme ∉ usesRelative then url
    else
      let inNetloc := u.scheme ∈ usesNetloc
      if inNetloc ∧ u.netloc ≠ [] then
        urlunparse ⟨u.scheme, u.netloc, u.path, u.params, u.query, u.fragment⟩
      else
        let netloc := if inNetloc then b.netloc else u.netloc
        if u.path = [] ∧ u.params = [] then
          let query := if u.query = [] then b.query else u.query
          urlunparse ⟨u.scheme, netloc, b.path, b.params, query, u.fragment⟩
        else
          let baseparts0 := splitOnChar '/' b.path
          let baseparts :=
            if baseparts0.getLastD [] ≠ [] then baseparts0.dropLast else baseparts0
          let segments :=
            if u.path.take 1 = ['/'] then splitOnChar '/' u.path
            else filterMid (baseparts ++ splitOnChar '/' u.path)
          let rp := List.intercalate ['/'] (resolveSegments segments)
          let rpath := if rp = [] then ['/'] else rp
          urlunparse ⟨u.scheme, netloc, rpath, u.params, u.query, u.fragment⟩

/-- Python `str.rstrip('/')`: drop every trailing `/`. -/
def rstripSlash (l : Str) : Str :=
  (l.reverse.dropWhile (· = '/')).reverse

/-- `WebScraper.normalize_url` (`web_scraper.py:66-72`): join with the
scraper's base URL, reparse, reassemble `scheme://netloc path` plus the
query when nonempty (dropping params and fragment), and strip trailing
slashes.  `base` is `self.base_url`. -/
def normalize_url (base url : Str) : Str :=
  let u := urljoin base url
  let p := urlparse u []
  let clean := p.scheme ++ ':' :: '/' :: '/' :: p.netloc ++ p.path
      ++ (if p.query ≠ [] then '?' :: p.query else [])
  rstripSlash clean

/-- `WebScraper.is_valid_url` (`web_scraper.py:59-64`): nonempty netloc equal
to the crawl's base domain (`urlparse(self.base_url).netloc`). -/
def is_valid_url (base url : Str) : Bool :=
  let n := (urlparse url []).netloc
  n ≠ [] && n = (urlparse base []).netloc

/-! ## Crawl traversal (`WebScraper.scrape`, `web_scraper.py:316-343`)

The network plus the markdown extraction are abstracted as a `World` oracle:
for a (normalized) URL it yields `none` on fetch failure (network error,
timeout, non-2xx — `fetch_page` returns `None`) or the page's extracted
markdown document together with the raw href values of its anchors.
Recursion depth is bounded by explicit fuel (the Python recursion needs no
fuel because the depth guard bounds it; every theorem below holds for every
fuel value).  A trace of events records each visited-set insertion and each
fetch, in order, so that the visited-before-fetch discipline is visible. -/

/-- One page of the abstract web: the markdown document `extract_markdown`
produces for it, and the `href` attributes of its anchor elements. -/
structure PageData where
  doc : Str
  hrefs : List Str

/-- The abstract web: `none` models a fetch failure. -/
abbrev World := Str → Option PageData

/-- Traversal events: `visit u` = `self.visited_urls.add(url)`,
`fetch u d` = the network call `self.fetch_page(url)` issued at frontier
depth `d`. -/
inductive Event where
  | visit : Str → Event
  | fetch : Str → Nat → Event
deriving DecidableEq, Repr

/-- Scraper configuration: `self.base_url` and `self.max_depth`. -/
structure SConfig where
  base_url : Str
  max_depth : Nat

/-- Mutable scraper state: `self.visited_urls` (a set, modelled as the list
of its elements in insertion order), `self.results`, and the event trace. -/
structure SState where
  visited : List Str
  results : List Str
  trace : List Event
deriving Repr

/-- `WebScraper.get_internal_links` (`web_scraper.py:303-314`): resolve each
href against the page URL, normalize it, keep same-domain URLs not yet
visited, and deduplicate (`list(set(links))`; the Python set iteration order
is unspecified, modelled as `List.dedup`). -/
def get_internal_links (c : SConfig) (pg : PageData) (url : Str)
    (visited : List Str) : List Str :=
  ((pg.hrefs.map fun h => normalize_url c.base_url (urljoin url h)).filter
    fun l => is_valid_url c.base_url l && !(visited.contains l)).dedup

/-- `WebScraper.scrape` (`web_scraper.py:316-343`): normalize, drop when
already visited or too deep, insert into the visited set, fetch, and on
success append the document and recurse over the internal links at
`depth + 1` when `depth < max_depth`.  The Python method returns
`self.results`; the model returns the whole state. -/
def scrape (w : World) (c : SConfig) : Nat → Str → Nat → SState → SState
  | 0, _, _, s => s
  | fuel + 1, url0, depth, s =>
    let url := normalize_url c.base_url url0
    if url ∈ s.visited ∨ depth > c.max_depth then s
    else
      let s2 : SState :=
        ⟨s.visited ++ [url], s.results, s.trace ++ [.visit url, .fetch url depth]⟩
      match w url with
      | none => s2
      | some pg =>
        let s3 : SState := ⟨s2.visited, s2.results ++ [pg.doc], s2.trace⟩
        if depth < c.max_depth then
          (get_internal_links c pg url s3.visited).foldl
            (fun st l => scrape w c fuel l (depth + 1) st) s3
        else s3

/-- A fresh crawl run: empty visited set, no results, empty trace, seed at
depth 0 (`scraper.scrape()` with `url = self.base_url`). -/
def scrapeRun (w : World) (c : SConfig) (fuel : Nat) : SState :=
  scrape w c fuel c.base_url 0 ⟨[], [], []⟩

/-- Trace discipline checker: scanning the trace left to right, every
`visit u` must be of a URL not yet in the visited set, and every `fetch u d`
must be of a URL already visited and never fetched before.  `okTrace [] []
tr = true` is the conjunction of the visited-once and at-most-one-fetch
invariants together with visited-before-fetch. -/
def okTrace (vis fetched : List Str) : List Event → Bool
  | [] => true
  | .visit u :: tr => !(vis.contains u) && okTrace (vis ++ [u]) fetched tr
  | .fetch u _ :: tr =>
    vis.contains u && (!(fetched.contains u) && okTrace vis (fetched ++ [u]) tr)

/-- The URLs inserted into the visited set, in trace order. -/
def visitsOf : List Event → List Str
  | [] => []
  | .visit u :: tr => u :: visitsOf tr
  | .fetch _ _ :: tr => visitsOf tr

/-- The URLs fetched, in trace order. -/
def fetchesOf : List Event → List Str
  | [] => []
  | .visit _ :: tr => fetchesOf tr
  | .fetch u _ :: tr => u :: fetchesOf tr

/-- Every fetch event in the trace happened at depth at most `m`. -/
def depthsLe (m : Nat) (tr : List Event) : Bool :=
  tr.all fun e => match e with
    | .visit _ => true
    | .fetch _ d => decide (d ≤ m)

/-- Always-failing world, used to witness the fetch-failure theorem. -/
def failWorld : World := fun _ => none

/-- A tiny concrete configuration for witnesses. -/
def cEx : SConfig := ⟨"http://h".toList, 2⟩

/-! ## Parsed documents (the BeautifulSoup collaborator)

A parsed document is a tree of element nodes (tag, attributes, ordered
children) and text nodes.  The root node plays the role of the
`BeautifulSoup` object (bs4 names it `[document]`).  `find`/`find_all`
search the *descendants* of a node in document order; the model pairs every
descendant with the tag names of its ancestors (outermost first) so that
`find_parent` queries can be answered.  Multi-valued `class` attributes are
stored as their source string and split on whitespace where bs4 would;
`re.compile(a|b|...)` patterns used with `re.search` semantics are modelled
as case-insensitive substring tests against the alternatives.  Children are
a dedicated `NodeList` type (mutual with `Node`) so that every traversal is
structurally recursive. -/

mutual
/-- A node of the parsed HTML tree. -/
inductive Node where
  | elem (tag : String) (attrs : List (String × Str)) (children : NodeList)
  | text (s : Str)
/-- An ordered list of sibling nodes. -/
inductive NodeList where
  | nil
  | cons (head : Node) (tail : NodeList)
end

/-- Build a `NodeList` from a Lean list of nodes. -/
def nodesOf : List Node → NodeList
  | [] => .nil
  | n :: t => .cons n (nodesOf t)

/-- Tag name of a node (text nodes have none). -/
def tagOf : Node → String
  | .elem t _ _ => t
  | .text _ => ""

/-- Attribute list of a node. -/
def attrsOf : Node → List (String × Str)
  | .elem _ a _ => a
  | .text _ => []

/-- `element.get(name, default)`. -/
def getAttr (attrs : List (String × Str)) (name : String) (dflt : Str) : Str :=
  match attrs.find? (fun p => p.1 == name) with
  | some p => p.2
  | none => dflt

/-- Python whitespace (`str.strip` / `str.split` / `\s`). -/
def isSpace (c : Char) : Bool :=
  c = ' ' || c = '\t' || c = '\n' || c = '\r' || c = '\x0b' || c = '\x0c'

/-- Python `str.strip()`. -/
def pyStrip (s : Str) : Str :=
  ((s.dropWhile isSpace).reverse.dropWhile isSpace).reverse

/-- One `foldr` step of whitespace splitting. -/
def splitWsStep (c : Char) (acc : List Str) : List Str :=
  if isSpace c then [] :: acc
  else
    match acc with
    | [] => [[c]]
    | w :: rest => (c :: w) :: rest

/-- Python `str.split()` (no argument): split on whitespace runs, no empty
words. -/
def splitWs (s : Str) : List Str :=
  (s.foldr splitWsStep []).filter (· ≠ [])

mutual
/-- The raw strings of the text descendants of a node (bs4 `.strings`; for
a text node, the string itself), in document order. -/
def stringsOf : Node → List Str
  | .text s => [s]
  | .elem _ _ cs => stringsOfList cs
/-- The raw strings of all text descendants of a sibling list. -/
def stringsOfList : NodeList → List Str
  | .nil => []
  | .cons h t => stringsOf h ++ stringsOfList t
end

/-- `element.get_text()`: concatenation of all text descendants. -/
def getText (n : Node) : Str := (stringsOf n).flatten

/-- `element.get_text(strip=True)`: concatenation of the individually
stripped text descendants. -/
def getTextStrip (n : Node) : Str := ((stringsOf n).map pyStrip).flatten

/-- All element descendants of the given sibling list, in document order,
each paired with the tag names of its ancestors (outermost first; `anc` are
the ancestors of the siblings' parent, inclusive). -/
def descendantsList (anc : List String) : NodeList → List (List String × Node)
  | .nil => []
  | .cons (.text _) rest => descendantsList anc rest
  | .cons (.elem tag attrs cs) rest =>
    (anc, .elem tag attrs cs) :: (descendantsList (anc ++ [tag]) cs ++ descendantsList anc rest)

/-- `n.find_all(...)` with ancestor tracking: the matching element
descendants of `n` (never `n` itself), in document order.  `anc` are the
ancestor tags of `n` itself. -/
def findAllAnc (anc : List String) (n : Node) (p : Node → Bool) :
    List (List String × Node) :=
  match n with
  | .text _ => []
  | .elem tag _ cs => (descendantsList (anc ++ [tag]) cs).filter (fun x => p x.2)

/-- `n.find(...)`: first matching descendant in document order. -/
def findFirst (n : Node) (p : Node → Bool) : Option Node :=
  (findAllAnc [] n p).head?.map (·.2)

/-- `n.find(...)` with ancestor tracking. -/
def findFirstAnc (anc : List String) (n : Node) (p : Node → Bool) :
    Option (List String × Node) :=
  (findAllAnc anc n p).head?

/-- Does the node have this tag? -/
def isTag (t : String) (n : Node) : Bool := tagOf n == t

/-- Case-insensitive `re.search` of an alternation of literal tokens. -/
def reSearchAny (pats : List Str) (s : Str) : Bool :=
  pats.any fun p => decide (p <:+: lowerStr s)

/-- bs4 attribute matching for `{'class': re.compile(...)}`: the element
must carry a `class` attribute and some whitespace-separated class token
must match the pattern. -/
def classMatches (pats : List Str) (attrs : List (String × Str)) : Bool :=
  match attrs.find? (fun p => p.1 == "class") with
  | none => false
  | some p => (splitWs p.2).any (reSearchAny pats)

/-- bs4 attribute matching for `{'id': re.compile(...)}` (single-valued). -/
def idMatches (pats : List Str) (attrs : List (String × Str)) : Bool :=
  match attrs.find? (fun p => p.1 == "id") with
  | none => false
  | some p => reSearchAny pats p.2

/-- `r'content__default|content|main-content|documentation|docs-content'`. -/
def contentTokens : List Str :=
  ["content__default".toList, "content".toList, "main-content".toList,
   "documentation".toList, "docs-content".toList]

/-- `r'content|main|documentation'`. -/
def idTokens : List Str := ["content".toList, "main".toList, "documentation".toList]

/-- `r'markdown|prose|post'`. -/
def proseTokens : List Str := ["markdown".toList, "prose".toList, "post".toList]

/-- `r'content'` (the inner `<main>` refinement pattern). -/
def mainTokens : List Str := ["content".toList]

/-- The selector list of `find_content_container` (`web_scraper.py:91-97`):
a tag name and an attribute condition per entry. -/
def selectorsList : List (String × (List (String × Str) → Bool)) :=
  [("main", fun _ => true),
   ("article", fun _ => true),
   ("div", classMatches contentTokens),
   ("div", idMatches idTokens),
   ("div", classMatches proseTokens)]

/-- The selector loop of `find_content_container` (`web_scraper.py:99-106`):
return the first selector's first match; for a `<main>` match, prefer its
first `<div>` descendant whose class matches `content` when one exists. -/
def findFromSelectors (soup : Node) :
    List (String × (List (String × Str) → Bool)) → Option (List String × Node)
  | [] => none
  | (tag, ap) :: rest =>
    match findFirstAnc [] soup (fun n => isTag tag n && ap (attrsOf n)) with
    | some (anc, el) =>
      if tag == "main" then
        match findFirstAnc anc el
            (fun d => isTag "div" d && classMatches mainTokens (attrsOf d)) with
        | some p => some p
        | none => some (anc, el)
      else some (anc, el)
    | none => findFromSelectors soup rest

/-- `WebScraper.find_content_container` (`web_scraper.py:89-108`), with the
chosen node's ancestor tags.  Falls back to the document body, then to the
whole document. -/
def find_content_container (soup : Node) : List String × Node :=
  match findFromSelectors soup selectorsList with
  | some p => p
  | none =>
    match findFirstAnc [] soup (isTag "body") with
    | some p => p
    | none => ([], soup)

/-- Following the spec's words (§4.2 Content Locator), as the refinement
counterpart of `find_content_container`: six priority levels, first match
wins — (1) a `<main>` element, preferring a content-classed `<div>`
descendant; (2) an `<article>`; (3) a `<div>` with a documentation/content
class; (4) a `<div>` with a content/main/documentation id; (5) a `<div>`
with a prose/markdown/post class; (6) the body, else the whole document. -/
def contentLocatorSpec (soup : Node) : List String × Node :=
  match findFirstAnc [] soup (isTag "main") with
  | some (anc, m) =>
    (match findFirstAnc anc m
        (fun d => isTag "div" d && classMatches mainTokens (attrsOf d)) with
     | some p => p
     | none => (anc, m))
  | none =>
    match findFirstAnc [] soup (isTag "article") with
    | some p => p
    | none =>
      match findFirstAnc [] soup
          (fun d => isTag "div" d && classMatches contentTokens (attrsOf d)) with
      | some p => p
      | none =>
        match findFirstAnc [] soup
            (fun d => isTag "div" d && idMatches idTokens (attrsOf d)) with
        | some p => p
        | none =>
          match findFirstAnc [] soup
              (fun d => isTag "div" d && classMatches proseTokens (attrsOf d)) with
          | some p => p
          | none =>
            match findFirstAnc [] soup (isTag "body") with
            | some p => p
            | none => ([], soup)

/-! ## Tables (`WebScraper.table_to_markdown`, `web_scraper.py:157-189`) -/

/-- `tr.find_all(['td','th'])` cell texts (`get_text(strip=True)`). -/
def cellsOf (tr : Node) : List Str :=
  (findAllAnc [] tr (fun n => isTag "td" n || isTag "th" n)).map fun x => getTextStrip x.2

/-- One markdown table row: `"| " + " | ".join(cells) + " |\n"`. -/
def mdRow (cells : List Str) : Str :=
  "| ".toList ++ List.intercalate " | ".toList cells ++ " |\n".toList

/-- One iteration budget of the `while len(row) < len(headers):
row.append('')` padding loop; the loop adds one cell per iteration, so `n`
units of fuel always suffice. -/
def padGo (fuel : Nat) (row : List Str) (n : Nat) : List Str :=
  match fuel with
  | 0 => row
  | fuel + 1 => if row.length < n then padGo fuel (row ++ [[]]) n else row

/-- The `while len(row) < len(headers): row.append('')` padding loop
(`web_scraper.py:185-186`). -/
def padLoop (row : List Str) (n : Nat) : List Str := padGo n row n

/-- The header cells: `thead.find_all('th')` texts when a `<thead>` exists
(`web_scraper.py:162-165`). -/
def theadCellTexts (table : Node) : List Str :=
  match findFirst table (isTag "thead") with
  | some thead => (findAllAnc [] thead (isTag "th")).map fun x => getTextStrip x.2
  | none => []

/-- The collected data rows: `(table.find('tbody') or table).find_all('tr')`
with empty rows dropped (`web_scraper.py:167-173`). -/
def collectedRows (table : Node) : List (List Str) :=
  ((findAllAnc [] ((findFirst table (isTag "tbody")).getD table) (isTag "tr")).map
    fun x => cellsOf x.2).filter (· ≠ [])

/-- `WebScraper.table_to_markdown` (`web_scraper.py:157-189`). -/
def table_to_markdown (table : Node) : Str :=
  let headers0 := theadCellTexts table
  let rows0 := collectedRows table
  let hr : List Str × List (List Str) :=
    if headers0 = [] ∧ rows0 ≠ [] then (rows0.headD [], rows0.tail) else (headers0, rows0)
  if hr.1 = [] then []
  else
    '\n' :: mdRow hr.1
      ++ mdRow (List.replicate hr.1.length "---".toList)
      ++ (hr.2.map fun r => mdRow ((padLoop r hr.1.length).take hr.1.length)).flatten

/-- Pad a data row with empty cells to the header width and truncate it to
that width. -/
def fitRow (n : Nat) (r : List Str) : List Str :=
  (r ++ List.replicate (n - r.length) []).take n

/-- Following the spec's words (§4.3 Table) amended for C6, as the
refinement counterpart of `table_to_markdown`: collect the data rows from
the `tbody` (or the whole table when there is none), dropping empty rows;
take the `th` cells of the `thead` as the header when that yields at least
one cell, otherwise promote the first collected row to header and exclude it
from the data; emit nothing when no header can be determined; otherwise emit
the pipe-delimited header row, a `---` separator row of the header width,
and every data row padded with empty cells, respectively truncated, to the
header width. -/
def tableSpec (table : Node) : Str :=
  let hr? : Option (List Str × List (List Str)) :=
    if theadCellTexts table ≠ [] then some (theadCellTexts table, collectedRows table)
    else
      match collectedRows table with
      | [] => none
      | r :: rs => some (r, rs)
  match hr? with
  | none => []
  | some (hs, rs) =>
    '\n' :: mdRow hs
      ++ mdRow (List.replicate hs.length "---".toList)
      ++ (rs.map fun r => mdRow (fitRow hs.length r)).flatten

/-- An element with a single text child. -/
def leafCell (tag : String) (s : Str) : Node := .elem tag [] (nodesOf [.text s])

/-- The C6 counterexample table: a `<thead>` whose cells are `<td>`s (no
`<th>`), followed by a `<tbody>` data row. -/
def tdHeadTable : Node :=
  .elem "table" [] (nodesOf
    [.elem "thead" [] (nodesOf [.elem "tr" [] (nodesOf
      [leafCell "td" "A".toList, leafCell "td" "B".toList])]),
     .elem "tbody" [] (nodesOf [.elem "tr" [] (nodesOf
      [leafCell "td" "1".toList, leafCell "td" "2".toList])])])

/-- The spec's round-trip example table: header row `A`,`B`; body rows
`1`,`2` and the short row `3`. -/
def exampleTable : Node :=
  .elem "table" [] (nodesOf
    [.elem "thead" [] (nodesOf [.elem "tr" [] (nodesOf
      [leafCell "th" "A".toList, leafCell "th" "B".toList])]),
     .elem "tbody" [] (nodesOf
      [.elem "tr" [] (nodesOf [leafCell "td" "1".toList, leafCell "td" "2".toList]),
       .elem "tr" [] (nodesOf [leafCell "td" "3".toList])])])

/-- The C8 family: a table holding only a `<thead>` with one row of `<th>`
cells carrying the given texts. -/
def mkTheadTable (hs : List Str) : Node :=
  .elem "table" [] (nodesOf
    [.elem "thead" [] (nodesOf
      [.elem "tr" [] (nodesOf (hs.map fun s => leafCell "th" s))])])

/-! ## Markdown extraction (`WebScraper.extract_markdown`, `web_scraper.py:191-301`) -/

/-- `re.sub(r'\s+', ' ', text)` scanner state step: `prevSpace` records
whether the previous character belonged to a whitespace run. -/
def collapseWsGo (prevSpace : Bool) : Str → Str
  | [] => []
  | c :: rest =>
    if isSpace c then
      if prevSpace then collapseWsGo true rest
      else ' ' :: collapseWsGo true rest
    else c :: collapseWsGo false rest

/-- `re.sub(r'\s+', ' ', text)`: collapse every whitespace run to a single
space. -/
def collapseWs (s : Str) : Str := collapseWsGo false s

/-- `WebScraper.clean_text` (`web_scraper.py:130-133`). -/
def clean_text (s : Str) : Str := pyStrip (collapseWs s)

/-- `re.sub(r'^#+\s*', '', text)`: strip a leading run of `#` markers and
the whitespace after it. -/
def stripHeadingMark (s : Str) : Str :=
  match s with
  | '#' :: _ => (s.dropWhile (· = '#')).dropWhile isSpace
  | _ => s

/-- `WebScraper.clean_heading_text` (`web_scraper.py:124-128`). -/
def clean_heading_text (s : Str) : Str := pyStrip (collapseWs (stripHeadingMark s))

/-- `str.replace(needle, '')` for a nonempty needle, with one fuel unit per
input character (enough, since every step consumes at least one). -/
def removeAllGo : Nat → Str → Str → Str
  | 0, _, s => s
  | _ + 1, _, [] => []
  | fuel + 1, needle, c :: rest =>
    if needle ≠ [] ∧ needle.isPrefixOf (c :: rest) then
      removeAllGo fuel needle ((c :: rest).drop needle.length)
    else c :: removeAllGo fuel needle rest

/-- Python `str.replace(needle, '')`. -/
def removeAll (needle s : Str) : Str := removeAllGo s.length needle s

/-- The class scan of `get_code_language`: first `language-`/`lang-` token
wins, default `php` (`web_scraper.py:116-122`). -/
def langOfClasses : List Str → Str
  | [] => "php".toList
  | cls :: rest =>
    if "language-".toList.isPrefixOf cls then removeAll "language-".toList cls
    else if "lang-".toList.isPrefixOf cls then removeAll "lang-".toList cls
    else langOfClasses rest

/-- `WebScraper.get_code_language` (`web_scraper.py:110-122`): bs4 presents
the `class` attribute as its whitespace-split token list. -/
def get_code_language (el : Node) : Str :=
  langOfClasses (splitWs (getAttr (attrsOf el) "class" []))

/-- Children of a node. -/
def childrenOf : Node → NodeList
  | .elem _ _ cs => cs
  | .text _ => .nil

/-- A `NodeList` as a Lean list. -/
def nodeListToList : NodeList → List Node
  | .nil => []
  | .cons h t => h :: nodeListToList t

/-- The child loop of `process_inline_elements` (`web_scraper.py:139-153`). -/
def inlineGo (url : Str) : NodeList → Str
  | .nil => []
  | .cons child rest =>
    (match child with
     | .text s => s
     | .elem tag attrs _ =>
       if tag == "code" then '`' :: getText child ++ ['`']
       else if tag == "a" then
         '[' :: getText child ++ "](".toList ++ urljoin url (getAttr attrs "href" []) ++ [')']
       else if tag == "strong" || tag == "b" then
         "**".toList ++ getText child ++ "**".toList
       else if tag == "em" || tag == "i" then
         '*' :: getText child ++ ['*']
       else getText child) ++ inlineGo url rest

/-- `WebScraper.process_inline_elements` (`web_scraper.py:135-155`). -/
def process_inline_elements (url : Str) (el : Node) : Str :=
  inlineGo url (childrenOf el)

/-- The tags considered by the block scan (`web_scraper.py:221`). -/
def blockTags : List String :=
  ["h1", "h2", "h3", "h4", "h5", "h6", "p", "pre", "ul", "ol", "table",
   "blockquote", "img", "svg"]

/-- Membership in the block-tag whitelist. -/
def isBlockTag (n : Node) : Bool := blockTags.contains (tagOf n)

/-- `int(element.name[1])` for a heading tag. -/
def headingLevel (tag : String) : Nat :=
  match tag.toList with
  | _ :: c :: _ => c.toNat - '0'.toNat
  | _ => 0

/-- The blockquote line treatment (`web_scraper.py:273-274`): split the
cleaned text on newlines, keep the lines with non-blank content, prefix
each with `"> "`. -/
def bqLines (t : Str) : List Str :=
  ((splitOnChar '\n' t).filter fun l => pyStrip l ≠ []).map fun l => "> ".toList ++ l

/-- Tags excised before extraction (`web_scraper.py:196-197`). -/
def removeTags : List String := ["script", "style", "nav", "footer", "header", "aside"]

mutual
/-- `elem.decompose()` sweep over a node: drop every descendant element
whose tag is in `removeTags`. -/
def decomposeN : Node → Node
  | .text s => .text s
  | .elem t a cs => .elem t a (decomposeL cs)
/-- The decompose sweep over a sibling list. -/
def decomposeL : NodeList → NodeList
  | .nil => .nil
  | .cons (.text s) rest => .cons (.text s) (decomposeL rest)
  | .cons (.elem t a cs) rest =>
    if removeTags.contains t then decomposeL rest
    else .cons (.elem t a (decomposeL cs)) (decomposeL rest)
end

/-- The `meta` lookup `soup.find('meta', attrs={'name': 'description'})`. -/
def metaPred (n : Node) : Bool :=
  isTag "meta" n && (getAttr (attrsOf n) "name" [] == "description".toList)

/-- The per-element emission rules of the block loop
(`web_scraper.py:234-293`); an element of a tag outside the whitelist, an
empty paragraph, or an empty table contributes nothing. -/
def renderBlock (url : Str) (el : Node) : Str :=
  let tag := tagOf el
  if tag ∈ (["h1", "h2", "h3", "h4", "h5", "h6"] : List String) then
    '\n' :: (List.replicate (headingLevel tag) '#' ++ ' ' :: clean_heading_text (getText el))
      ++ ['\n']
  else if tag == "p" then
    let text := clean_text (process_inline_elements url el)
    if text ≠ [] then '\n' :: text ++ ['\n'] else []
  else if tag == "pre" then
    let lc : Str × Str :=
      match findFirst el (isTag "code") with
      | some code => (get_code_language code, getText code)
      | none => (get_code_language el, getText el)
    "\n```".toList ++ lc.1 ++ '\n' :: lc.2 ++ "```\n".toList
  else if tag == "ul" || tag == "ol" then
    let lis := (nodeListToList (childrenOf el)).filter (isTag "li")
    let items :=
      if tag == "ol" then
        (lis.enumFrom 1).map fun p =>
          "  ".toList ++ Nat.toDigits 10 p.1 ++ ". ".toList ++ clean_text (getText p.2)
      else lis.map fun li => "  - ".toList ++ clean_text (getText li)
    '\n' :: List.intercalate ['\n'] items ++ ['\n']
  else if tag == "blockquote" then
    '\n' :: List.intercalate ['\n'] (bqLines (clean_text (getText el))) ++ ['\n']
  else if tag == "table" then table_to_markdown el
  else if tag == "img" then
    "\n![".toList ++ getAttr (attrsOf el) "alt" []
      ++ "](".toList ++ urljoin url (getAttr (attrsOf el) "src" []) ++ ")\n".toList
  else if tag == "svg" then
    let t :=
      match findFirst el (isTag "title") with
      | some te => getText te
      | none => "Diagram".toList
    "\n*[SVG Diagram: ".toList ++ t ++ "]*\n".toList
  else []

/-- How many newlines a maximal `\n` run emits after
`re.sub(r'\n{4,}', '\n\n\n', md)`. -/
def emitNl (k : Nat) : Str := List.replicate (if 4 ≤ k then 3 else k) '\n'

/-- Scanner for the newline collapse; `k` counts the pending `\n` run. -/
def collapse4Go (k : Nat) : Str → Str
  | [] => emitNl k
  | c :: rest =>
    if c = '\n' then collapse4Go (k + 1) rest
    else emitNl k ++ c :: collapse4Go 0 rest

/-- `re.sub(r'\n{4,}', '\n\n\n', md)` (`web_scraper.py:299`). -/
def collapse4 (s : Str) : Str := collapse4Go 0 s

/-- `WebScraper.extract_markdown` (`web_scraper.py:191-301`): excise the
unwanted elements, read the title and meta description, locate the content
container, walk its block-level descendants in document order — skipping
any element inside a `pre` or `code` ancestor — render each block, and
collapse overlong newline runs.  The `processed` id-set of the source is a
no-op (a single `find_all` traversal never yields the same element object
twice) and is therefore not modelled. -/
def extract_markdown (soup0 : Node) (url : Str) : Str :=
  let soup := decomposeN soup0
  let title_text :=
    match findFirst soup (isTag "title") with
    | some t => getTextStrip t
    | none => []
  let description :=
    match findFirst soup metaPred with
    | some m => getAttr (attrsOf m) "content" []
    | none => []
  let cc := find_content_container soup
  let header : Str :=
    "# ".toList ++ title_text ++ "\n".toList
      ++ "\n**URL:** ".toList ++ url ++ "\n".toList
      ++ (if description ≠ [] then
            "\n**Description:** ".toList ++ description ++ "\n".toList
          else [])
      ++ "\n---\n".toList
  let elements := findAllAnc cc.1 cc.2 isBlockTag
  collapse4 (header ++
    (elements.map fun x =>
      if x.1.contains "pre" || x.1.contains "code" then [] else renderBlock url x.2).flatten)

/-- A document whose body holds one `<pre><code>` block with the given raw
code text (the C10 family). -/
def preDoc (s : Str) : Node :=
  .elem "[document]" [] (nodesOf [.elem "html" [] (nodesOf [.elem "body" [] (nodesOf
    [.elem "pre" [] (nodesOf [.elem "code" [] (nodesOf [.text s])])])])])

/-- A document whose body holds an unordered list whose single item carries
text `t1` and a nested unordered list with single item text `t2` (the C9
family). -/
def nestedListDoc (t1 t2 : Str) : Node :=
  .elem "[document]" [] (nodesOf [.elem "html" [] (nodesOf [.elem "body" [] (nodesOf
    [.elem "ul" [] (nodesOf
      [.elem "li" [] (nodesOf
        [.text t1,
         .elem "ul" [] (nodesOf [.elem "li" [] (nodesOf [.text t2])])])])])])])

/-! ## Theorems -/


theorem visitsOf_append (t1 t2 : List Event) :
    visitsOf (t1 ++ t2) = visitsOf t1 ++ visitsOf t2 := by
  induction t1 with
  | nil => rfl
  | cons e t ih => cases e <;> simp [visitsOf, ih]

theorem fetchesOf_append (t1 t2 : List Event) :
    fetchesOf (t1 ++ t2) = fetchesOf t1 ++ fetchesOf t2 := by
  induction t1 with
  | nil => rfl
  | cons e t ih => cases e <;> simp [fetchesOf, ih]

theorem okTrace_append (t1 t2 : List Event) : ∀ vis f,
    okTrace vis f (t1 ++ t2) =
      (okTrace vis f t1 && okTrace (vis ++ visitsOf t1) (f ++ fetchesOf t1) t2) := by
  induction t1 with
  | nil => intro vis f; simp [okTrace, visitsOf, fetchesOf]
  | cons e t ih =>
    intro vis f
    cases e with
    | visit u =>
      simp only [List.cons_append, okTrace, visitsOf, fetchesOf, List.append_eq]
      rw [ih]
      simp [Bool.and_assoc, List.append_assoc]
    | fetch u d =>
      simp only [List.cons_append, okTrace, visitsOf, fetchesOf, List.append_eq]
      rw [ih]
      simp [Bool.and_assoc, List.append_assoc]

theorem okTrace_visits_nodup : ∀ (tr : List Event) (vis f : List Str),
    okTrace vis f tr = true → vis.Nodup → (vis ++ visitsOf tr).Nodup := by
  intro tr
  induction tr with
  | nil => intro vis f _ hv; simpa [visitsOf]
  | cons e t ih =>
    intro vis f h hv
    cases e with
    | visit u =>
      rw [okTrace, Bool.and_eq_true] at h
      obtain ⟨hc, hrest⟩ := h
      have hu : u ∉ vis := by simpa using hc
      have hnd : (vis ++ [u]).Nodup := by
        simpa [List.nodup_append, hu] using hv
      have := ih (vis ++ [u]) f hrest hnd
      simpa [visitsOf, List.append_assoc] using this
    | fetch u d =>
      rw [okTrace, Bool.and_eq_true, Bool.and_eq_true] at h
      simpa [visitsOf] using ih vis (f ++ [u]) h.2.2 hv

theorem okTrace_fetches_nodup : ∀ (tr : List Event) (vis f : List Str),
    okTrace vis f tr = true → f.Nodup → (f ++ fetchesOf tr).Nodup := by
  intro tr
  induction tr with
  | nil => intro vis f _ hf; simpa [fetchesOf]
  | cons e t ih =>
    intro vis f h hf
    cases e with
    | visit u =>
      rw [okTrace, Bool.and_eq_true] at h
      simpa [fetchesOf] using ih (vis ++ [u]) f h.2 hf
    | fetch u d =>
      rw [okTrace, Bool.and_eq_true, Bool.and_eq_true] at h
      obtain ⟨hc, hfc, hrest⟩ := h
      have hu : u ∉ f := by simpa using hfc
      have hnd : (f ++ [u]).Nodup := by
        simpa [List.nodup_append, hu] using hf
      have := ih vis (f ++ [u]) hrest hnd
      simpa [fetchesOf, List.append_assoc] using this

theorem okTrace_fetches_visited : ∀ (tr : List Event) (vis f : List Str),
    okTrace vis f tr = true → ∀ x ∈ fetchesOf tr, x ∈ vis ∨ x ∈ visitsOf tr := by
  intro tr
  induction tr with
  | nil => intro vis f _ x hx; simp [fetchesOf] at hx
  | cons e t ih =>
    intro vis f h x hx
    cases e with
    | visit u =>
      rw [okTrace, Bool.and_eq_true] at h
      simp only [fetchesOf] at hx
      rcases ih (vis ++ [u]) f h.2 x hx with h1 | h1
      · rcases List.mem_append.1 h1 with h2 | h2
        · exact Or.inl h2
        · simp only [List.mem_singleton] at h2
          exact Or.inr (by simp [visitsOf, h2])
      · exact Or.inr (by simp [visitsOf, h1])
    | fetch u d =>
      rw [okTrace, Bool.and_eq_true, Bool.and_eq_true] at h
      simp only [fetchesOf, List.mem_cons] at hx
      rcases hx with rfl | hx
      · exact Or.inl (List.mem_of_elem_eq_true h.1)
      · simpa [visitsOf] using ih vis (f ++ [u]) h.2.2 x hx

/-- The crawl invariant: the trace is well-disciplined and the visited set is
exactly the list of visit events. -/
def ScrapeInv (s : SState) : Prop :=
  okTrace [] [] s.trace = true ∧ s.visited = visitsOf s.trace

theorem scrape_preserves_inv (w : World) (c : SConfig) :
    ∀ (fuel : Nat) (url : Str) (depth : Nat) (s : SState),
      ScrapeInv s → ScrapeInv (scrape w c fuel url depth s) := by
  intro fuel
  induction fuel with
  | zero => intro url depth s h; simpa [scrape] using h
  | succ fuel ih =>
    intro url depth s h
    simp only [scrape]
    by_cases hg : normalize_url c.base_url url ∈ s.visited ∨ depth > c.max_depth
    · rw [if_pos hg]; exact h
    · rw [if_neg hg]
      push_neg at hg
      obtain ⟨hc, _⟩ := hg
      obtain ⟨hok, hvis⟩ := h
      set n := normalize_url c.base_url url with hn
      have hnotmem : n ∉ visitsOf s.trace := by rw [← hvis]; exact hc
      have hnotfetched : n ∉ fetchesOf s.trace := by
        intro hmem
        rcases okTrace_fetches_visited s.trace [] [] hok n hmem with h3 | h3
        · simp at h3
        · exact hnotmem h3
      have hok2 : okTrace [] []
          (s.trace ++ [Event.visit n, Event.fetch n depth]) = true := by
        rw [okTrace_append]
        simp only [hok, Bool.true_and, List.nil_append]
        simp [okTrace, hnotmem, hnotfetched]
      have hvis2 : s.visited ++ [n] =
          visitsOf (s.trace ++ [Event.visit n, Event.fetch n depth]) := by
        rw [visitsOf_append, hvis]; simp [visitsOf]
      cases hw : w n with
      | none => exact ⟨hok2, hvis2⟩
      | some pg =>
        dsimp only
        by_cases hd : depth < c.max_depth
        · rw [if_pos hd]
          have hinv3 : ScrapeInv ⟨s.visited ++ [n],
              s.results ++ [pg.doc],
              s.trace ++ [Event.visit n, Event.fetch n depth]⟩ :=
            ⟨hok2, hvis2⟩
          generalize (get_internal_links c pg n (s.visited ++ [n])) = links
          generalize hst : (⟨s.visited ++ [n], s.results ++ [pg.doc],
              s.trace ++ [Event.visit n, Event.fetch n depth]⟩ : SState) = st at hinv3 ⊢
          clear hst hvis2 hok2 hnotmem hok hvis hc hw
          induction links generalizing st with
          | nil => simpa using hinv3
          | cons l ls ihl =>
            exact ihl (scrape w c fuel l (depth + 1) st) (ih l (depth + 1) st hinv3)
        · rw [if_neg hd]
          exact ⟨hok2, hvis2⟩

/-- Claim C1: in any crawl run started from a fresh state, every normalized
URL is inserted into the visited set at most once and before it is ever
fetched, and is fetched at most once, no matter how often it is re-submitted
during the recursive traversal (`okTrace` checks exactly this discipline
along the event trace); consequently the visited set and the list of fetched
URLs are duplicate-free. -/
theorem scrape_visited_once (w : World) (c : SConfig) (fuel : Nat) :
    okTrace [] [] (scrapeRun w c fuel).trace = true ∧
    (scrapeRun w c fuel).visited.Nodup ∧
    (fetchesOf (scrapeRun w c fuel).trace).Nodup := by
  have h : ScrapeInv (scrapeRun w c fuel) :=
    scrape_preserves_inv w c fuel c.base_url 0 ⟨[], [], []⟩ ⟨rfl, rfl⟩
  obtain ⟨hok, hvis⟩ := h
  refine ⟨hok, ?_, ?_⟩
  · rw [hvis]
    simpa using okTrace_visits_nodup (scrapeRun w c fuel).trace [] [] hok List.nodup_nil
  · simpa using okTrace_fetches_nodup (scrapeRun w c fuel).trace [] [] hok List.nodup_nil

theorem depthsLe_append (m : Nat) (t1 t2 : List Event) :
    depthsLe m (t1 ++ t2) = (depthsLe m t1 && depthsLe m t2) := by
  simp [depthsLe, List.all_append]

theorem scrape_trace_depths (w : World) (c : SConfig) :
    ∀ (fuel : Nat) (url : Str) (depth : Nat) (s : SState),
      depthsLe c.max_depth s.trace = true →
      depthsLe c.max_depth (scrape w c fuel url depth s).trace = true := by
  intro fuel
  induction fuel with
  | zero => intro url depth s h; simpa [scrape] using h
  | succ fuel ih =>
    intro url depth s h
    simp only [scrape]
    by_cases hg : normalize_url c.base_url url ∈ s.visited ∨ depth > c.max_depth
    · rw [if_pos hg]; exact h
    · rw [if_neg hg]
      push_neg at hg
      obtain ⟨_, hdep⟩ := hg
      set n := normalize_url c.base_url url with hn
      have h2 : depthsLe c.max_depth
          (s.trace ++ [Event.visit n, Event.fetch n depth]) = true := by
        rw [depthsLe_append, h]
        simp [depthsLe, hdep]
      cases hw : w n with
      | none => exact h2
      | some pg =>
        dsimp only
        by_cases hd : depth < c.max_depth
        · rw [if_pos hd]
          generalize (get_internal_links c pg n (s.visited ++ [n])) = links
          generalize hst : (⟨s.visited ++ [n], s.results ++ [pg.doc],
              s.trace ++ [Event.visit n, Event.fetch n depth]⟩ : SState) = st
          have h3 : depthsLe c.max_depth st.trace = true := by rw [← hst]; exact h2
          clear hst h2 h
          induction links generalizing st with
          | nil => simpa using h3
          | cons l ls ihl =>
            exact ihl (scrape w c fuel l (depth + 1) st) (ih l (depth + 1) st h3)
        · rw [if_neg hd]
          exact h2

/-- Claim C2: in a crawl run seeded at depth 0, every fetch recorded in the
trace happens at a frontier depth at most the configured maximum depth, and
an entry submitted at any depth exceeding the maximum is dropped unchanged —
no visit, no fetch, no result. -/
theorem scrape_depth_bound (w : World) (c : SConfig) (fuel k : Nat)
    (url : Str) (s : SState) :
    depthsLe c.max_depth (scrapeRun w c fuel).trace = true ∧
    scrape w c fuel url (c.max_depth + 1 + k) s = s := by
  constructor
  · exact scrape_trace_depths w c fuel c.base_url 0 ⟨[], [], []⟩ rfl
  · cases fuel with
    | zero => rfl
    | succ fuel =>
      simp only [scrape]
      rw [if_pos (Or.inr (by omega))]

/-- Claim C7: when the fetch of a not-yet-visited, depth-admissible URL
fails (`fetch_page` returns `None`), the scraper records the visit and the
attempted fetch but appends nothing to the results and explores none of the
page's links — the state is otherwise unchanged — and processing a frontier
list continues with the remaining links from exactly that state, so the run
completes with the results accumulated from the other pages. -/
theorem scrape_fetch_failure (w : World) (c : SConfig) (fuel depth : Nat)
    (url : Str) (s : SState)
    (h1 : normalize_url c.base_url url ∉ s.visited)
    (h2 : depth ≤ c.max_depth)
    (h3 : w (normalize_url c.base_url url) = none) :
    scrape w c (fuel + 1) url depth s =
      ⟨s.visited ++ [normalize_url c.base_url url], s.results,
        s.trace ++ [Event.visit (normalize_url c.base_url url),
          Event.fetch (normalize_url c.base_url url) depth]⟩ ∧
    ∀ rest : List Str,
      (url :: rest).foldl (fun st l => scrape w c (fuel + 1) l depth st) s =
        rest.foldl (fun st l => scrape w c (fuel + 1) l depth st)
          ⟨s.visited ++ [normalize_url c.base_url url], s.results,
            s.trace ++ [Event.visit (normalize_url c.base_url url),
              Event.fetch (normalize_url c.base_url url) depth]⟩ := by
  have hg : ¬ (normalize_url c.base_url url ∈ s.visited ∨ depth > c.max_depth) := by
    push_neg
    exact ⟨h1, by omega⟩
  have hmain : scrape w c (fuel + 1) url depth s =
      ⟨s.visited ++ [normalize_url c.base_url url], s.results,
        s.trace ++ [Event.visit (normalize_url c.base_url url),
          Event.fetch (normalize_url c.base_url url) depth]⟩ := by
    simp only [scrape]
    rw [if_neg hg, h3]
  refine ⟨hmain, fun rest => ?_⟩
  simp only [List.foldl_cons, hmain]

/-- Witness for `scrape_fetch_failure`: a concrete failing fetch of a fresh
URL in the always-failing world. -/
theorem scrape_fetch_failure_witness :
    scrape failWorld cEx (2 + 1) "http://h/a".toList 1 ⟨[], [], []⟩ =
      ⟨["http://h/a".toList], [],
        [Event.visit "http://h/a".toList, Event.fetch "http://h/a".toList 1]⟩ := by
  have h := scrape_fetch_failure failWorld cEx 2 1 "http://h/a".toList ⟨[], [], []⟩
    (by simp) (by norm_num [cEx]) rfl
  have hn : normalize_url cEx.base_url "http://h/a".toList = "http://h/a".toList := by decide
  rw [hn] at h
  exact h.1


theorem padGo_eq : ∀ (fuel : Nat) (row : List Str) (n : Nat),
    n - row.length ≤ fuel →
    padGo fuel row n = row ++ List.replicate (n - row.length) [] := by
  intro fuel
  induction fuel with
  | zero =>
    intro row n h
    have h0 : n - row.length = 0 := Nat.le_zero.1 h
    simp [padGo, h0]
  | succ fuel ih =>
    intro row n h
    rw [padGo]
    by_cases hlt : row.length < n
    · rw [if_pos hlt, ih (row ++ [[]]) n (by simp; omega)]
      have h2 : n - row.length = (n - (row.length + 1)) + 1 := by omega
      rw [List.append_assoc, h2]
      simp [List.replicate_succ]
    · rw [if_neg hlt]
      have h0 : n - row.length = 0 := by omega
      simp [h0]

theorem padLoop_take (row : List Str) (n : Nat) :
    (padLoop row n).take n = fitRow n row := by
  rw [padLoop, padGo_eq n row n (by omega), fitRow]

theorem collectedRows_ne_nil (t : Node) : ∀ r ∈ collectedRows t, r ≠ [] := by
  intro r hr
  have := List.mem_filter.1 hr
  simpa using this.2

/-- Claim C6 (amended): the table renderer refines the spec's table contract
with the header clause corrected — the header row consists of the `th` cells
found inside a `thead` when there are any; otherwise (also when a `thead`
exists but contains no `th` cells) the first collected row is promoted to
header and excluded from the data rows; data rows are padded with empty
cells, respectively truncated, to the header width; nothing is emitted when
no header can be determined.  On the spec's round-trip example (header
`A`,`B`, body rows `1`,`2` and the short row `3`) the output is the expected
two-column table with the short row padded by one empty cell. -/
theorem table_to_markdown_eq_spec :
    (∀ t : Node, table_to_markdown t = tableSpec t) ∧
    table_to_markdown exampleTable =
      "\n| A | B |\n| --- | --- |\n| 1 | 2 |\n| 3 |  |\n".toList := by
  constructor
  · intro t
    simp only [table_to_markdown, tableSpec, padLoop_take]
    by_cases hH : theadCellTexts t = []
    · cases hR : collectedRows t with
      | nil => simp [hH, hR]
      | cons r rs =>
        have hr : r ≠ [] := collectedRows_ne_nil t r (by rw [hR]; exact List.mem_cons_self r rs)
        simp [hH, hR, hr]
    · simp [hH]
  · decide

/-- Claim C6 counterexample: in a table whose `<thead>` holds `td` cells
(no `th`) above a `<tbody>` data row, the emitted header row is the first
body row `1`,`2` — not the header-section cells `A`,`B` with `1`,`2` as a
data row, as the claim's header clause demands. -/
theorem table_td_thead_counterexample :
    table_to_markdown tdHeadTable = "\n| 1 | 2 |\n| --- | --- |\n".toList ∧
    table_to_markdown tdHeadTable ≠
      "\n| A | B |\n| --- | --- |\n| 1 | 2 |\n".toList := by
  exact ⟨by decide, by decide⟩

theorem getTextStrip_leafCell (tag : String) (s : Str) :
    getTextStrip (leafCell tag s) = pyStrip s := by
  simp [getTextStrip, leafCell, nodesOf, stringsOf, stringsOfList]

theorem descendantsList_cells (tag : String) (anc : List String) (hs : List Str) :
    descendantsList anc (nodesOf (hs.map fun s => leafCell tag s)) =
      hs.map fun s => (anc, leafCell tag s) := by
  induction hs with
  | nil => rfl
  | cons s t ih =>
    simp only [leafCell, nodesOf] at ih ⊢
    simp [descendantsList, ih]

theorem filter_map_none {α β : Type} (f : α → β) (q : β → Bool) (hs : List α)
    (h : ∀ s ∈ hs, q (f s) = false) : (hs.map f).filter (fun x => q x) = [] := by
  induction hs with
  | nil => rfl
  | cons s t ih =>
    simp only [List.map_cons, List.filter_cons, h s (List.mem_cons_self s t)]
    exact ih fun x hx => h x (List.mem_cons_of_mem s hx)

theorem filter_map_all {α β : Type} (f : α → β) (q : β → Bool) (hs : List α)
    (h : ∀ s ∈ hs, q (f s) = true) : (hs.map f).filter (fun x => q x) = hs.map f := by
  induction hs with
  | nil => rfl
  | cons s t ih =>
    simp only [List.map_cons, List.filter_cons, h s (List.mem_cons_self s t)]
    simp only [if_true]
    rw [ih fun x hx => h x (List.mem_cons_of_mem s hx)]

theorem mkTheadTable_descend (hs : List Str) :
    descendantsList ["table"]
      (nodesOf [Node.elem "thead" [] (nodesOf
        [Node.elem "tr" [] (nodesOf (hs.map fun s => leafCell "th" s))])]) =
    (["table"], Node.elem "thead" [] (nodesOf
        [Node.elem "tr" [] (nodesOf (hs.map fun s => leafCell "th" s))])) ::
      (["table", "thead"], Node.elem "tr" [] (nodesOf (hs.map fun s => leafCell "th" s))) ::
        (hs.map fun s => (["table", "thead", "tr"], leafCell "th" s)) := by
  simp [nodesOf, descendantsList, descendantsList_cells]

theorem mkTheadTable_thead_cells (hs : List Str) :
    theadCellTexts (mkTheadTable hs) = hs.map pyStrip := by
  rw [theadCellTexts, mkTheadTable, findFirst, findAllAnc]
  rw [List.nil_append, mkTheadTable_descend hs]
  rw [List.filter_cons_of_pos rfl, List.filter_cons_of_neg (by simp [isTag, tagOf])]
  rw [filter_map_none _ _ _ (fun s _ => rfl)]
  simp only [List.head?_cons, Option.map_some']
  rw [findAllAnc, List.nil_append]
  have hd2 : descendantsList ["thead"]
      (nodesOf [Node.elem "tr" [] (nodesOf (hs.map fun s => leafCell "th" s))]) =
      (["thead"], Node.elem "tr" [] (nodesOf (hs.map fun s => leafCell "th" s))) ::
        (hs.map fun s => (["thead", "tr"], leafCell "th" s)) := by
    simp [nodesOf, descendantsList, descendantsList_cells]
  rw [hd2, List.filter_cons_of_neg (by simp [isTag, tagOf])]
  rw [filter_map_all _ _ _ (fun s _ => rfl)]
  simp only [List.map_map, Function.comp]
  simp [getTextStrip_leafCell]

theorem mkTheadTable_rows (hs : List Str) (h : hs ≠ []) :
    collectedRows (mkTheadTable hs) = [hs.map pyStrip] := by
  rw [collectedRows]
  have hnone : findFirst (mkTheadTable hs) (isTag "tbody") = none := by
    rw [mkTheadTable, findFirst, findAllAnc, List.nil_append, mkTheadTable_descend hs]
    rw [List.filter_cons_of_neg (by simp [isTag, tagOf]),
      List.filter_cons_of_neg (by simp [isTag, tagOf])]
    rw [filter_map_none _ _ _ (fun s _ => rfl)]
    rfl
  rw [hnone, Option.getD_none, mkTheadTable, findAllAnc, List.nil_append,
    mkTheadTable_descend hs]
  rw [List.filter_cons_of_neg (by simp [isTag, tagOf]), List.filter_cons_of_pos rfl]
  rw [filter_map_none (fun s => (["table", "thead", "tr"], leafCell "th" s))
    (fun x => isTag "tr" x.2) hs (fun s _ => rfl)]
  have hcells : cellsOf (Node.elem "tr" [] (nodesOf (hs.map fun s => leafCell "th" s))) =
      hs.map pyStrip := by
    rw [cellsOf, findAllAnc, List.nil_append, descendantsList_cells]
    rw [filter_map_all _ _ _ (fun s _ => rfl)]
    simp only [List.map_map, Function.comp]
    simp [getTextStrip_leafCell]
  simp only [List.map_cons, List.map_nil, hcells, List.filter_cons]
  have hne : hs.map pyStrip ≠ [] := by
    intro hx
    exact h (List.map_eq_nil_iff.1 hx)
  simp [hne]

/-- Claim C8: for a table whose `<thead>` carries header cells but which has
no `<tbody>`, the `thead` row is also collected as a data row, so the header
cell texts appear twice — once as the header row and once again as the first
(and here only) pipe-delimited data row. -/
theorem thead_without_tbody_dup (hs : List Str) (h : hs ≠ []) :
    table_to_markdown (mkTheadTable hs) =
      '\n' :: mdRow (hs.map pyStrip)
        ++ mdRow (List.replicate hs.length "---".toList)
        ++ mdRow (hs.map pyStrip) := by
  have hne : hs.map pyStrip ≠ [] := by
    intro hx
    exact h (List.map_eq_nil_iff.1 hx)
  simp only [table_to_markdown, mkTheadTable_thead_cells, mkTheadTable_rows hs h]
  rw [if_neg (by simp [hne])]
  have ht : List.take hs.length (hs.map pyStrip) = hs.map pyStrip :=
    List.take_of_length_le (by simp)
  simp [hne, padLoop_take, fitRow, ht]

/-- Witness for `thead_without_tbody_dup` at the concrete header `A`,`B`. -/
theorem thead_without_tbody_dup_witness :
    table_to_markdown (mkTheadTable ["A".toList, "B".toList]) =
      "\n| A | B |\n| --- | --- |\n| A | B |\n".toList := by
  rw [thead_without_tbody_dup ["A".toList, "B".toList] (by decide)]
  decide

/-- Claim C5: the Content Locator applies its heuristics in the stated
priority order (a `<main>` element with preference for a content-classed
`<div>` descendant, then `<article>`, then `<div>`s by content-token class,
then by id token, then by prose/markdown/post class), uses only the first
matching candidate at each level, and always returns a node, falling back to
the document body and finally to the whole document — stated as equality
with `contentLocatorSpec`, the locator written level by level from the
spec's words. -/
theorem find_content_container_eq_spec (soup : Node) :
    find_content_container soup = contentLocatorSpec soup := by
  simp only [find_content_container, selectorsList, findFromSelectors, contentLocatorSpec,
    Bool.and_true]
  cases h1 : findFirstAnc [] soup (isTag "main") with
  | some p =>
    obtain ⟨anc, m⟩ := p
    cases h2 : findFirstAnc anc m (fun d => isTag "div" d && classMatches mainTokens (attrsOf d)) with
    | some q => simp [h1, h2]
    | none => simp [h1, h2]
  | none =>
    cases h2 : findFirstAnc [] soup (isTag "article") with
    | some p => obtain ⟨anc, el⟩ := p; simp [h1, h2]
    | none =>
      cases h3 : findFirstAnc [] soup
          (fun n => isTag "div" n && classMatches contentTokens (attrsOf n)) with
      | some p => obtain ⟨anc, el⟩ := p; simp [h1, h2, h3]
      | none =>
        cases h4 : findFirstAnc [] soup
            (fun n => isTag "div" n && idMatches idTokens (attrsOf n)) with
        | some p => obtain ⟨anc, el⟩ := p; simp [h1, h2, h3, h4]
        | none =>
          cases h5 : findFirstAnc [] soup
              (fun n => isTag "div" n && classMatches proseTokens (attrsOf n)) with
          | some p => obtain ⟨anc, el⟩ := p; simp [h1, h2, h3, h4, h5]
          | none =>
            cases h6 : findFirstAnc [] soup (isTag "body") with
            | some p => simp [h1, h2, h3, h4, h5, h6]
            | none => simp [h1, h2, h3, h4, h5, h6]

/-- Claim C10 counterexample: for a `<pre><code>` block whose raw text is
empty, the closing fence does begin on its own line (the output ends in a
newline, three backticks, newline) even though the raw text does not end
with a newline — the claimed biconditional fails. -/
theorem pre_fence_counterexample :
    ¬ (("\n```\n".toList <:+ extract_markdown (preDoc []) "http://u".toList) ↔
      ("\n".toList <:+ ([] : Str))) := by decide

theorem fence_suffix (X t : Str) :
    ("\n```\n".toList <:+ (X ++ '\n' :: (t ++ "```\n".toList))) ↔
      (t = [] ∨ ['\n'] <:+ t) := by
  have hm : (X ++ '\n' :: (t ++ "```\n".toList)).reverse =
      '\n' :: '`' :: '`' :: '`' :: (t.reverse ++ '\n' :: X.reverse) := by
    simp [List.reverse_append]
  have hl : ("\n```\n".toList).reverse = ['\n', '`', '`', '`', '\n'] := by rfl
  rw [← List.reverse_prefix, hm, hl]
  simp only [List.cons_prefix_cons, true_and]
  cases ht : t.reverse with
  | nil =>
    have ht0 : t = [] := by simpa using congrArg List.reverse ht
    subst ht0
    simp [List.cons_prefix_cons]
  | cons a u =>
    have htne : t ≠ [] := by
      intro h0
      rw [h0] at ht
      exact List.noConfusion ht
    have hrt : (['\n'] <:+ t) ↔ ('\n' = a) := by
      rw [← List.reverse_prefix, ht]
      simp [List.cons_prefix_cons]
    simp [List.cons_prefix_cons, htne, hrt]

/-- Claim C10 (amended): for every `pre` element with a `code` descendant,
the block renderer emits a fenced block whose closing fence is appended
immediately after the raw code text, so the closing fence begins on its own
line if and only if the raw code text ends with a newline character or is
empty (the original claim misses the empty case, refuted in
`pre_fence_counterexample`). -/
theorem pre_fence_newline (url : Str) (attrs : List (String × Str)) (cs : NodeList)
    (code : Node) (h : findFirst (Node.elem "pre" attrs cs) (isTag "code") = some code) :
    renderBlock url (.elem "pre" attrs cs) =
      "\n```".toList ++ get_code_language code ++ '\n' :: (getText code ++ "```\n".toList) ∧
    (("\n```\n".toList <:+ renderBlock url (.elem "pre" attrs cs)) ↔
      (getText code = [] ∨ ['\n'] <:+ getText code)) := by
  have hr : renderBlock url (.elem "pre" attrs cs) =
      "\n```".toList ++ get_code_language code ++ '\n' :: (getText code ++ "```\n".toList) := by
    rw [renderBlock]
    simp only [tagOf]
    rw [if_neg (by decide), if_neg (by decide), if_pos (by decide)]
    rw [h]
    simp [List.append_assoc]
  refine ⟨hr, ?_⟩
  rw [hr]
  have := fence_suffix ("\n```".toList ++ get_code_language code) (getText code)
  simpa [List.append_assoc] using this

/-- Witness for `pre_fence_newline` at a concrete `<pre><code>` whose text
ends with a newline. -/
theorem pre_fence_newline_witness :
    renderBlock [] (Node.elem "pre" []
        (nodesOf [Node.elem "code" [] (nodesOf [Node.text "x\n".toList])])) =
      "\n```php\nx\n```\n".toList ∧
    ("\n```\n".toList <:+ renderBlock [] (Node.elem "pre" []
        (nodesOf [Node.elem "code" [] (nodesOf [Node.text "x\n".toList])]))) := by
  have h := pre_fence_newline [] [] (nodesOf [Node.elem "code" [] (nodesOf [Node.text "x\n".toList])])
    (Node.elem "code" [] (nodesOf [Node.text "x\n".toList])) rfl
  constructor
  · rw [h.1]; decide
  · exact h.2.mpr (Or.inr (by decide))

theorem dropWhile_nospace (s : Str) (h : ∀ c ∈ s, isSpace c = false) :
    s.dropWhile isSpace = s := by
  cases s with
  | nil => rfl
  | cons c rest =>
    rw [List.dropWhile_cons_of_neg]
    simp [h c (List.mem_cons_self c rest)]

theorem pyStrip_nospace (s : Str) (h : ∀ c ∈ s, isSpace c = false) :
    pyStrip s = s := by
  rw [pyStrip, dropWhile_nospace s h,
    dropWhile_nospace s.reverse (fun c hc => h c (List.mem_reverse.1 hc)),
    List.reverse_reverse]

theorem collapseWsGo_nospace (s : Str) (h : ∀ c ∈ s, isSpace c = false) :
    ∀ b, collapseWsGo b s = s := by
  induction s with
  | nil => intro b; rfl
  | cons c rest ih =>
    intro b
    have hc : isSpace c = false := h c (List.mem_cons_self c rest)
    simp [collapseWsGo, hc, ih (fun x hx => h x (List.mem_cons_of_mem c hx)) false]

theorem clean_text_nospace (s : Str) (h : ∀ c ∈ s, isSpace c = false) :
    clean_text s = s := by
  rw [clean_text, collapseWs, collapseWsGo_nospace s h, pyStrip_nospace s h]

theorem collapse4Go_nonl (t : Str) (h : ∀ c ∈ t, c ≠ '\n') :
    ∀ rest, collapse4Go 0 (t ++ rest) = t ++ collapse4Go 0 rest := by
  induction t with
  | nil => intro rest; rfl
  | cons c u ih =>
    intro rest
    have hc : c ≠ '\n' := h c (List.mem_cons_self c u)
    simp [collapse4Go, hc, emitNl, ih (fun x hx => h x (List.mem_cons_of_mem c hx)) rest]

/-- Claim C9: for a list item that carries text and a nested list (outside
any `pre`/`code`), the nested item text is emitted twice — once flattened
into the enclosing item's text (whose `get_text` spans all descendants) and
once as the nested list's own block when the recursive block scan reaches
it.  Proved as the full extracted document of the two-level list family: the
nested text `t2` appears inside the outer bullet (`t1 ++ t2`) and again as
its own bullet. -/
theorem nested_list_double (t1 t2 : Str)
    (h1 : ∀ c ∈ t1, isSpace c = false)
    (h2 : ∀ c ∈ t2, isSpace c = false) :
    extract_markdown (nestedListDoc t1 t2) "http://u".toList =
      "# \n\n**URL:** http://u\n\n---\n\n  - ".toList
        ++ (t1 ++ (t2 ++ ("\n\n  - ".toList ++ (t2 ++ "\n".toList)))) := by
  have h12 : ∀ c ∈ t1 ++ t2, isSpace c = false := by
    intro c hc
    rcases List.mem_append.1 hc with h | h
    · exact h1 c h
    · exact h2 c h
  have hc12 : clean_text (t1 ++ t2) = t1 ++ t2 := clean_text_nospace _ h12
  have hc2 : clean_text t2 = t2 := clean_text_nospace _ h2
  have hnl1 : ∀ c ∈ t1, c ≠ '\n' := by
    intro c hc he
    have := h1 c hc
    rw [he] at this
    simp [isSpace] at this
  have hnl2 : ∀ c ∈ t2, c ≠ '\n' := by
    intro c hc he
    have := h2 c hc
    rw [he] at this
    simp [isSpace] at this
  have hrb1 : renderBlock "http://u".toList
      (Node.elem "ul" [] (nodesOf [Node.elem "li" [] (nodesOf [Node.text t1,
        Node.elem "ul" [] (nodesOf [Node.elem "li" [] (nodesOf [Node.text t2])])])])) =
      '\n' :: (("  - ".toList ++ (t1 ++ t2)) ++ ['\n']) := by
    simp +decide [renderBlock, childrenOf, nodeListToList, isTag, tagOf, getText,
      stringsOf, stringsOfList, nodesOf, List.intercalate, List.intersperse, hc12]
  have hrb2 : renderBlock "http://u".toList
      (Node.elem "ul" [] (nodesOf [Node.elem "li" [] (nodesOf [Node.text t2])])) =
      '\n' :: (("  - ".toList ++ t2) ++ ['\n']) := by
    simp +decide [renderBlock, childrenOf, nodeListToList, isTag, tagOf, getText,
      stringsOf, stringsOfList, nodesOf, List.intercalate, List.intersperse, hc2]
  simp only [extract_markdown,
    show decomposeN (nestedListDoc t1 t2) = nestedListDoc t1 t2 from rfl,
    show findFirst (nestedListDoc t1 t2) (isTag "title") = none from rfl,
    show findFirst (nestedListDoc t1 t2) metaPred = none from rfl,
    show find_content_container (nestedListDoc t1 t2) =
      (["[document]", "html"], Node.elem "body" [] (nodesOf
        [Node.elem "ul" [] (nodesOf [Node.elem "li" [] (nodesOf [Node.text t1,
          Node.elem "ul" [] (nodesOf [Node.elem "li" [] (nodesOf [Node.text t2])])])])])) from rfl,
    show findAllAnc ["[document]", "html"] (Node.elem "body" [] (nodesOf
        [Node.elem "ul" [] (nodesOf [Node.elem "li" [] (nodesOf [Node.text t1,
          Node.elem "ul" [] (nodesOf [Node.elem "li" [] (nodesOf [Node.text t2])])])])]))
        isBlockTag =
      [(["[document]", "html", "body"],
        Node.elem "ul" [] (nodesOf [Node.elem "li" [] (nodesOf [Node.text t1,
          Node.elem "ul" [] (nodesOf [Node.elem "li" [] (nodesOf [Node.text t2])])])])),
       (["[document]", "html", "body", "ul", "li"],
        Node.elem "ul" [] (nodesOf [Node.elem "li" [] (nodesOf [Node.text t2])]))] from rfl,
    List.map_cons, List.map_nil,
    show ((["[document]", "html", "body"] : List String).contains "pre"
      || (["[document]", "html", "body"] : List String).contains "code") = false from rfl,
    show ((["[document]", "html", "body", "ul", "li"] : List String).contains "pre"
      || (["[document]", "html", "body", "ul", "li"] : List String).contains "code") = false
      from rfl,
    Bool.false_eq_true, if_false, hrb1, hrb2]
  rw [collapse4]
  simp +decide [collapse4Go, emitNl,
    collapse4Go_nonl t1 hnl1, collapse4Go_nonl t2 hnl2, List.append_assoc]

/-- Witness for `nested_list_double` at concrete item texts. -/
theorem nested_list_double_witness :
    extract_markdown (nestedListDoc "alpha".toList "beta".toList) "http://u".toList =
      "# \n\n**URL:** http://u\n\n---\n\n  - alphabeta\n\n  - beta\n".toList := by
  rw [nested_list_double "alpha".toList "beta".toList (by decide) (by decide)]
  decide

/-- Claim C3 counterexample: two URLs that differ only by a trailing path
slash do not normalize identically when a query string is present — the
final `rstrip('/')` acts on the assembled string, whose tail is then the
query, so the path's trailing slash survives. -/
theorem normalize_trailing_slash_counterexample :
    normalize_url "http://h".toList "http://h/a/?q=1".toList ≠
      normalize_url "http://h".toList "http://h/a?q=1".toList := by decide

/-- Claim C4 counterexample: normalization is not idempotent — a query
consisting of a single slash is stripped to a bare `?`, which the second
pass parses as an empty query and drops. -/
theorem normalize_idem_counterexample :
    normalize_url "http://h".toList (normalize_url "http://h".toList "http://h/p?/".toList) ≠
      normalize_url "http://h".toList "http://h/p?/".toList := by decide

theorem char_toNat_ofNat (n : Nat) (h : n.isValidChar) : (Char.ofNat n).toNat = n := by
  rw [Char.ofNat, dif_pos h, Char.ofNatAux, Char.toNat]
  have hlt : n < 2 ^ 32 := by
    rcases h with h | h
    · omega
    · omega
  simp [UInt32.toNat, BitVec.toNat_ofNat, Nat.mod_eq_of_lt hlt]

theorem toLower_toNat (c : Char) :
    c.toLower.toNat = if 65 ≤ c.toNat ∧ c.toNat ≤ 90 then c.toNat + 32 else c.toNat := by
  rw [Char.toLower]
  by_cases h : 65 ≤ c.toNat ∧ c.toNat ≤ 90
  · rw [if_pos ⟨h.1, h.2⟩, if_pos h]
    exact char_toNat_ofNat _ (Or.inl (by omega))
  · rw [if_neg (by rw [ge_iff_le]; exact h), if_neg h]

theorem toLower_toLower (c : Char) : c.toLower.toLower = c.toLower := by
  have h1 := toLower_toNat c
  have h2 := toLower_toNat c.toLower
  have key : c.toLower.toLower.toNat = c.toLower.toNat := by
    rw [h2]
    by_cases h : 65 ≤ c.toNat ∧ c.toNat ≤ 90
    · rw [h1, if_pos h] at *
      rw [if_neg (by omega)]
    · rw [h1, if_neg h] at *
      rw [if_neg h]
  exact Char.eq_of_val_eq (by
    simp only [Char.toNat] at key
    exact UInt32.ext key)

theorem char_eq_toNat (c d : Char) : c = d ↔ c.toNat = d.toNat :=
  ⟨fun h => by rw [h], fun h => Char.eq_of_val_eq (UInt32.ext h)⟩

theorem isUpper_toNat (c : Char) : c.isUpper = true ↔ (65 ≤ c.toNat ∧ c.toNat ≤ 90) := by
  rw [Char.isUpper]
  simp only [Bool.and_eq_true, decide_eq_true_eq]
  exact Iff.rfl

theorem isLower_toNat (c : Char) : c.isLower = true ↔ (97 ≤ c.toNat ∧ c.toNat ≤ 122) := by
  rw [Char.isLower]
  simp only [Bool.and_eq_true, decide_eq_true_eq]
  exact Iff.rfl

theorem isAlpha_toNat (c : Char) :
    c.isAlpha = true ↔ ((65 ≤ c.toNat ∧ c.toNat ≤ 90) ∨ (97 ≤ c.toNat ∧ c.toNat ≤ 122)) := by
  rw [Char.isAlpha]
  simp only [Bool.or_eq_true, isUpper_toNat, isLower_toNat]

theorem isAlpha_toLower (c : Char) : c.toLower.isAlpha = c.isAlpha := by
  by_cases ha : 65 ≤ c.toNat ∧ c.toNat ≤ 90
  · have h1 : c.toLower.isAlpha = true :=
      (isAlpha_toNat _).2 (Or.inr (by rw [toLower_toNat, if_pos ha]; omega))
    have h2 : c.isAlpha = true := (isAlpha_toNat _).2 (Or.inl ha)
    rw [h1, h2]
  · rw [(char_eq_toNat c.toLower c).2 (by rw [toLower_toNat, if_neg ha])]

theorem schemeChar_toLower (c : Char) : schemeChar c.toLower = schemeChar c := by
  by_cases ha : 65 ≤ c.toNat ∧ c.toNat ≤ 90
  · have h1 : schemeChar c = true := by
      have : c.isAlpha = true := (isAlpha_toNat c).2 (Or.inl ha)
      simp [schemeChar, Char.isAlphanum, this]
    have h2 : schemeChar c.toLower = true := by
      have : c.toLower.isAlpha = true :=
        (isAlpha_toNat _).2 (Or.inr (by rw [toLower_toNat, if_pos ha]; omega))
      simp [schemeChar, Char.isAlphanum, this]
    rw [h1, h2]
  · rw [(char_eq_toNat c.toLower c).2 (by rw [toLower_toNat, if_neg ha])]

theorem lowerStr_lowerStr (s : Str) : lowerStr (lowerStr s) = lowerStr s := by
  simp only [lowerStr, List.map_map]
  exact List.map_congr_left fun c _ => toLower_toLower c

theorem lowerStr_all_schemeChar (s : Str) :
    (lowerStr s).all schemeChar = s.all schemeChar := by
  rw [lowerStr, List.all_map]
  induction s with
  | nil => rfl
  | cons c t ih => simp [Function.comp, schemeChar_toLower, ih]

theorem lowerStr_head_isAlpha (s : Str) :
    ((lowerStr s).headD ' ').isAlpha = (s.headD ' ').isAlpha := by
  cases s with
  | nil => rfl
  | cons c t => simp [lowerStr, isAlpha_toLower]

theorem dropWhile_head_not (p : Char → Bool) (l : List Char) (a : Char) (t : List Char)
    (h : l.dropWhile p = a :: t) : p a = false := by
  induction l with
  | nil => cases h
  | cons c r ih =>
    by_cases hp : p c
    · rw [List.dropWhile_cons_of_pos hp] at h
      exact ih h
    · rw [List.dropWhile_cons_of_neg hp] at h
      cases h
      simpa using hp

theorem rstripSlash_eq_append (A B : Str) (h : rstripSlash B ≠ []) :
    rstripSlash (A ++ B) = A ++ rstripSlash B := by
  have hne : (B.reverse.dropWhile (· = '/')).isEmpty = false := by
    cases hc : B.reverse.dropWhile (· = '/') with
    | nil =>
      exfalso
      apply h
      rw [rstripSlash, hc]
      rfl
    | cons a t => rfl
  rw [rstripSlash, List.reverse_append, List.dropWhile_append, hne]
  simp [rstripSlash, List.reverse_append]

theorem rstripSlash_eq_self (l : Str) (h : l.getLast? ≠ some '/') : rstripSlash l = l := by
  rw [rstripSlash]
  cases hc : l.reverse with
  | nil =>
    have hl : l = [] := by simpa using congrArg List.reverse hc
    rw [hl]
    rfl
  | cons a t =>
    have ha : ¬ (a = '/') := by
      intro hav
      apply h
      rw [← List.head?_reverse, hc, hav]
      rfl
    rw [List.dropWhile_cons_of_neg (by simpa using ha), ← hc, List.reverse_reverse]

theorem rstripSlash_getLast (l : Str) (h : rstripSlash l ≠ []) :
    (rstripSlash l).getLast? ≠ some '/' := by
  rw [rstripSlash] at h ⊢
  cases hc : l.reverse.dropWhile (· = '/') with
  | nil =>
    rw [hc] at h
    exact absurd rfl h
  | cons a t =>
    have ha := dropWhile_head_not _ _ _ _ hc
    rw [List.getLast?_reverse]
    simp only [List.head?_cons]
    intro hx
    rw [Option.some.injEq] at hx
    rw [hx] at ha
    simp at ha

theorem rstripSlash_sublist (l : Str) : List.Sublist (rstripSlash l) l := by
  rw [rstripSlash]
  have h1 : List.Sublist (l.reverse.dropWhile (· = '/')) l.reverse :=
    List.dropWhile_sublist _
  have h2 := h1.reverse
  simpa using h2

theorem rstripSlash_eq_nil (B : Str) (h : rstripSlash B = []) : ∀ c ∈ B, c = '/' := by
  intro c hc
  rw [rstripSlash] at h
  have h2 : B.reverse.dropWhile (· = '/') = [] := by
    simpa using congrArg List.reverse h
  have := List.dropWhile_eq_nil_iff.1 h2 c (List.mem_reverse.2 hc)
  simpa using this

theorem takeWhile_dropWhile_mid (c : Char) (A B : Str) (hA : ∀ x ∈ A, x ≠ c) :
    (A ++ c :: B).takeWhile (· ≠ c) = A ∧ (A ++ c :: B).dropWhile (· ≠ c) = c :: B := by
  induction A with
  | nil =>
    constructor
    · rw [List.nil_append, List.takeWhile_cons_of_neg (by simp)]
    · rw [List.nil_append, List.dropWhile_cons_of_neg (by simp)]
  | cons a t ih =>
    have ha : a ≠ c := hA a (List.mem_cons_self a t)
    have iht := ih fun x hx => hA x (List.mem_cons_of_mem a hx)
    constructor
    · rw [List.cons_append, List.takeWhile_cons_of_pos (by simpa using ha), iht.1]
    · rw [List.cons_append, List.dropWhile_cons_of_pos (by simpa using ha), iht.2]

theorem splitAtChar_mid (c : Char) (A B : Str) (hA : ∀ x ∈ A, x ≠ c) :
    splitAtChar c (A ++ c :: B) = (A, B) := by
  have h := takeWhile_dropWhile_mid c A B hA
  rw [splitAtChar, h.1, h.2]
  rfl

theorem splitAtChar_no (c : Char) (l : Str) (h : ∀ x ∈ l, x ≠ c) :
    splitAtChar c l = (l, []) := by
  rw [splitAtChar]
  have h2 : l.dropWhile (· ≠ c) = [] :=
    List.dropWhile_eq_nil_iff.2 fun x hx => by simpa using h x hx
  have h3 : l.takeWhile (· ≠ c) ++ l.dropWhile (· ≠ c) = l := by
    rw [List.takeWhile_append_dropWhile]
  rw [h2, List.append_nil] at h3
  rw [h2, h3]
  rfl

theorem splitNetloc_mem (rest : Str) :
    ∀ c ∈ (splitNetloc rest).1, c ≠ '/' ∧ c ≠ '?' ∧ c ≠ '#' := by
  intro c hc
  rw [splitNetloc.eq_def] at hc
  split at hc
  · have := List.mem_takeWhile_imp hc
    simpa using this
  · simp at hc

theorem mem_splitparams (p : Str) : ∀ c ∈ (splitparams p).1, c ∈ p := by
  intro c hc
  rw [splitparams] at hc
  split at hc
  · split at hc
    · dsimp only at hc
      split at hc
      · rcases List.mem_append.1 hc with h | h
        · exact List.mem_of_mem_take h
        · have h1 := (List.takeWhile_sublist _).mem h
          have h2 := (List.takeWhile_sublist (fun x => decide (x ≠ '/'))).mem
            (List.mem_reverse.1 (by simpa using h1))
          exact List.mem_reverse.1 (by simpa using h2)
      · exact hc
    · exact (List.takeWhile_sublist _).mem hc
  · exact hc

theorem urlparse_eq_split (url ds : Str) :
    (urlparse url ds).scheme = (urlsplit url ds).scheme ∧
    (urlparse url ds).netloc = (urlsplit url ds).netloc ∧
    (urlparse url ds).query = (urlsplit url ds).query ∧
    (urlparse url ds).fragment = (urlsplit url ds).fragment ∧
    (∀ c ∈ (urlparse url ds).path, c ∈ (urlsplit url ds).path) := by
  rw [urlparse]
  split
  · exact ⟨rfl, rfl, rfl, rfl, fun c hc => mem_splitparams _ c hc⟩
  · exact ⟨rfl, rfl, rfl, rfl, fun c hc => hc⟩

theorem urlsplit_netloc_mem (url ds : Str) :
    ∀ c ∈ (urlsplit url ds).netloc, c ≠ '/' ∧ c ≠ '?' ∧ c ≠ '#' := by
  intro c hc
  exact splitNetloc_mem _ c hc

theorem urlsplit_path_mem (url ds : Str) :
    ∀ c ∈ (urlsplit url ds).path, c ≠ '?' ∧ c ≠ '#' := by
  intro c hc
  have hc1 : c ∈ ((splitNetloc (splitScheme url ds).2).2.takeWhile
      (· ≠ '#')).takeWhile (· ≠ '?') := hc
  have h2 := List.mem_takeWhile_imp hc1
  have hc2 := (List.takeWhile_sublist _).mem hc1
  have h3 := List.mem_takeWhile_imp hc2
  exact ⟨by simpa using h2, by simpa using h3⟩

theorem urlsplit_query_mem (url ds : Str) :
    ∀ c ∈ (urlsplit url ds).query, c ≠ '#' := by
  intro c hc
  have hc1 : c ∈ (((splitNetloc (splitScheme url ds).2).2.takeWhile
      (· ≠ '#')).dropWhile (· ≠ '?')).drop 1 := hc
  have hc2 := (List.dropWhile_sublist _).mem ((List.drop_sublist _ _).mem hc1)
  have h3 := List.mem_takeWhile_imp hc2
  simpa using h3

theorem urlparse_scheme_facts (url : Str) (h : (urlparse url []).scheme ≠ []) :
    (urlparse url []).scheme.all schemeChar = true ∧
    ((urlparse url []).scheme.headD ' ').isAlpha = true ∧
    lowerStr (urlparse url []).scheme = (urlparse url []).scheme := by
  have heq : (urlparse url []).scheme = (splitScheme url []).1 :=
    (urlparse_eq_split url []).1
  rw [heq] at h ⊢
  cases hfi : url.findIdx? (fun c => c = ':') with
  | none =>
    rw [splitScheme, hfi] at h
    exact absurd rfl h
  | some i =>
    rw [splitScheme, hfi] at h ⊢
    dsimp only at h ⊢
    by_cases hif : 0 < i ∧ (url.headD ' ').isAlpha ∧ (url.take i).all schemeChar
    · rw [if_pos hif] at h ⊢
      refine ⟨?_, ?_, lowerStr_lowerStr _⟩
      · rw [lowerStr_all_schemeChar]
        exact hif.2.2
      · rw [lowerStr_head_isAlpha]
        have hi : 0 < i := hif.1
        cases url with
        | nil => simp at hif
        | cons u0 ut =>
          have ht : (u0 :: ut).take i = u0 :: ut.take (i - 1) := by
            cases i with
            | zero => omega
            | succ j => simp
          rw [ht]
          simpa using hif.2.1
    · rw [if_neg hif] at h
      exact absurd rfl h

theorem rstripSlash_cons (a : Char) (l : Str) (ha : a ≠ '/') :
    rstripSlash (a :: l) = a :: rstripSlash l := by
  rw [rstripSlash, rstripSlash]
  have hrev : (a :: l).reverse = l.reverse ++ [a] := by simp
  rw [hrev, List.dropWhile_append]
  cases he : (l.reverse.dropWhile (· = '/')).isEmpty
  · simp only [Bool.false_eq_true, if_false]
    rw [List.reverse_append]
    rfl
  · simp only [if_pos rfl]
    have h1 : l.reverse.dropWhile (· = '/') = [] := List.isEmpty_iff.1 he
    rw [h1, List.dropWhile_cons_of_neg (by simpa using ha)]
    simp

theorem rstripSlash_idem (l : Str) : rstripSlash (rstripSlash l) = rstripSlash l := by
  cases h : rstripSlash l with
  | nil => rfl
  | cons a t =>
    rw [← h]
    exact rstripSlash_eq_self _ (rstripSlash_getLast l (by rw [h]; exact List.cons_ne_nil a t))

theorem rstripSlash_all_ne (l : Str) (h : ∀ c ∈ l, c ≠ '/') : rstripSlash l = l := by
  apply rstripSlash_eq_self
  intro hg
  exact h '/' (List.mem_of_mem_getLast? hg) rfl

theorem rstripSlash_append_nil (A B : Str) (h : rstripSlash B = []) :
    rstripSlash (A ++ B) = rstripSlash A := by
  have h2 : B.reverse.dropWhile (· = '/') = [] := by
    rw [rstripSlash] at h
    simpa using congrArg List.reverse h
  rw [rstripSlash, rstripSlash, List.reverse_append, List.dropWhile_append, h2]
  simp

theorem rstripSlash_isPrefix (l : Str) : List.IsPrefix (rstripSlash l) l := by
  obtain ⟨t, ht⟩ := List.dropWhile_suffix (l := l.reverse) (· = '/')
  exact ⟨t.reverse, by rw [rstripSlash, ← List.reverse_append, ht, List.reverse_reverse]⟩

theorem prefix_take_one (A B : Str) (h : List.IsPrefix A B) (hne : A ≠ []) :
    A.take 1 = B.take 1 := by
  obtain ⟨t, ht⟩ := h
  cases A with
  | nil => exact absurd rfl hne
  | cons a s => rw [← ht]; simp

theorem findIdx_first (p : Char → Bool) (A : Str) (b : Char) (B : Str)
    (hA : ∀ a ∈ A, p a = false) (hb : p b = true) :
    ∀ i, List.findIdx? p (A ++ b :: B) i = some (A.length + i) := by
  induction A with
  | nil =>
    intro i
    rw [List.nil_append, List.findIdx?, hb]
    simp
  | cons a t ih =>
    intro i
    rw [List.cons_append, List.findIdx?, hA a (List.mem_cons_self a t)]
    simp only [Bool.false_eq_true, if_neg]
    rw [ih (fun x hx => hA x (List.mem_cons_of_mem a hx)) (i + 1)]
    simp
    omega

theorem takeWhile_all_append (p : Char → Bool) (A T : Str) (hA : ∀ a ∈ A, p a = true) :
    (A ++ T).takeWhile p = A ++ T.takeWhile p ∧ (A ++ T).dropWhile p = T.dropWhile p := by
  induction A with
  | nil => exact ⟨rfl, rfl⟩
  | cons a t ih =>
    have iht := ih fun x hx => hA x (List.mem_cons_of_mem a hx)
    constructor
    · rw [List.cons_append, List.takeWhile_cons_of_pos (hA a (List.mem_cons_self a t)),
        iht.1, List.cons_append]
    · rw [List.cons_append, List.dropWhile_cons_of_pos (hA a (List.mem_cons_self a t)),
        iht.2]

theorem splitparams_no_semi (p : Str) (h : ';' ∉ p) : splitparams p = (p, []) := by
  rw [splitparams, if_neg]
  intro hc
  exact h (List.mem_of_elem_eq_true hc)

theorem splitNetloc_slash (r : Str) :
    splitNetloc ('/' :: '/' :: r) =
      (r.takeWhile (fun c => c ≠ '/' ∧ c ≠ '?' ∧ c ≠ '#'),
       r.dropWhile (fun c => c ≠ '/' ∧ c ≠ '?' ∧ c ≠ '#')) := rfl

theorem splitScheme_shape (s R ds : Str)
    (hs1 : s ≠ []) (hs2 : s.all schemeChar = true)
    (hs3 : (s.headD ' ').isAlpha = true) (hs4 : lowerStr s = s) :
    splitScheme (s ++ ':' :: R) ds = (s, R) := by
  have hcolon : ∀ a ∈ s, ((fun c => decide (c = ':')) a) = false := by
    intro a ha
    by_cases hac : a = ':'
    · rw [hac] at ha
      exact absurd (List.all_eq_true.1 hs2 ':' ha) (by decide)
    · simp [hac]
  rw [splitScheme]
  have hfi := findIdx_first (fun c => decide (c = ':')) s ':' R hcolon (by decide) 0
  rw [Nat.add_zero] at hfi
  rw [hfi]
  dsimp only
  have h0 : 0 < s.length := List.length_pos.2 hs1
  have hhead : ((s ++ ':' :: R).headD ' ') = s.headD ' ' := by
    cases s with
    | nil => exact absurd rfl hs1
    | cons a t => rfl
  have htake : (s ++ ':' :: R).take s.length = s := List.take_left s _
  rw [if_pos ⟨h0, by rw [hhead]; exact hs3, by rw [htake]; exact hs2⟩]
  rw [htake, hs4]
  have hdrop : (s ++ ':' :: R).drop (s.length + 1) = R := by
    have h1 : (s ++ ':' :: R).drop s.length = ':' :: R := List.drop_left s _
    have h2 := List.drop_drop 1 s.length (s ++ ':' :: R)
    rw [h1] at h2
    rw [← h2]
    rfl
  rw [hdrop]

theorem splitNetloc_shape (v T : Str)
    (hv : ∀ c ∈ v, c ≠ '/' ∧ c ≠ '?' ∧ c ≠ '#')
    (hT : T = [] ∨ ∃ a t, T = a :: t ∧ (a = '/' ∨ a = '?' ∨ a = '#')) :
    splitNetloc ('/' :: '/' :: (v ++ T)) = (v, T) := by
  rw [splitNetloc_slash]
  have hvB : ∀ c ∈ v, ((fun c => decide (c ≠ '/' ∧ c ≠ '?' ∧ c ≠ '#')) c) = true :=
    fun c hc => by simpa using hv c hc
  have htw := takeWhile_all_append (fun c => decide (c ≠ '/' ∧ c ≠ '?' ∧ c ≠ '#')) v T hvB
  have hT2 : T.takeWhile (fun c => decide (c ≠ '/' ∧ c ≠ '?' ∧ c ≠ '#')) = []
      ∧ T.dropWhile (fun c => decide (c ≠ '/' ∧ c ≠ '?' ∧ c ≠ '#')) = T := by
    rcases hT with hTe | ⟨a, t, hTc, ha⟩
    · rw [hTe]
      exact ⟨rfl, rfl⟩
    · have haf : ((fun c => decide (c ≠ '/' ∧ c ≠ '?' ∧ c ≠ '#')) a) = false := by
        rcases ha with h | h | h <;> simp [h]
      rw [hTc]
      exact ⟨List.takeWhile_cons_of_neg (by simp [haf]),
        List.dropWhile_cons_of_neg (by simp [haf])⟩
  rw [htw.1, htw.2, hT2.1, hT2.2, List.append_nil]

theorem urlsplit_shape (s v pa q ds : Str)
    (hs1 : s ≠ []) (hs2 : s.all schemeChar = true)
    (hs3 : (s.headD ' ').isAlpha = true) (hs4 : lowerStr s = s)
    (hv2 : ∀ c ∈ v, c ≠ '/' ∧ c ≠ '?' ∧ c ≠ '#')
    (hp1 : pa = [] ∨ pa.take 1 = ['/'])
    (hp2 : ∀ c ∈ pa, c ≠ '?' ∧ c ≠ '#')
    (hq2 : ∀ c ∈ q, c ≠ '#') :
    urlsplit (s ++ ':' :: '/' :: '/' :: (v ++ pa ++ (if q ≠ [] then '?' :: q else []))) ds
      = ⟨s, v, pa, [], q, []⟩ := by
  have hpq : ∀ x ∈ pa, x ≠ '?' := fun x hx => (hp2 x hx).1
  by_cases hqe : q = []
  · rw [hqe]
    simp only [ne_eq, not_true_eq_false, if_neg, List.append_nil, ite_false]
    have hshape : pa = [] ∨ ∃ a t, pa = a :: t ∧ (a = '/' ∨ a = '?' ∨ a = '#') := by
      rcases hp1 with h | h
      · exact Or.inl h
      · cases pa with
        | nil => exact Or.inl rfl
        | cons a t =>
          refine Or.inr ⟨a, t, rfl, Or.inl ?_⟩
          simpa using h
    simp only [urlsplit]
    rw [splitScheme_shape _ _ _ hs1 hs2 hs3 hs4]
    rw [show ((s, '/' :: '/' :: (v ++ pa)) : Str × Str).2 = '/' :: '/' :: (v ++ pa) from rfl]
    rw [splitNetloc_shape v pa hv2 hshape]
    rw [show ((v, pa) : Str × Str).2 = pa from rfl]
    rw [splitAtChar_no '#' pa (fun x hx => (hp2 x hx).2)]
    rw [show ((pa, ([] : Str)) : Str × Str).1 = pa from rfl]
    rw [splitAtChar_no '?' pa hpq]
  · rw [if_pos hqe]
    have hshape : pa ++ '?' :: q = [] ∨
        ∃ a t, pa ++ '?' :: q = a :: t ∧ (a = '/' ∨ a = '?' ∨ a = '#') := by
      rcases hp1 with h | h
      · rw [h, List.nil_append]
        exact Or.inr ⟨'?', q, rfl, Or.inr (Or.inl rfl)⟩
      · cases pa with
        | nil => exact Or.inr ⟨'?', q, rfl, Or.inr (Or.inl rfl)⟩
        | cons a t =>
          refine Or.inr ⟨a, t ++ '?' :: q, rfl, Or.inl ?_⟩
          simpa using h
    have hassoc : v ++ pa ++ '?' :: q = v ++ (pa ++ '?' :: q) := List.append_assoc v pa _
    rw [hassoc]
    simp only [urlsplit]
    rw [splitScheme_shape _ _ _ hs1 hs2 hs3 hs4]
    rw [show ((s, '/' :: '/' :: (v ++ (pa ++ '?' :: q))) : Str × Str).2
      = '/' :: '/' :: (v ++ (pa ++ '?' :: q)) from rfl]
    rw [splitNetloc_shape v (pa ++ '?' :: q) hv2 hshape]
    rw [show ((v, pa ++ '?' :: q) : Str × Str).2 = pa ++ '?' :: q from rfl]
    have hnh : ∀ x ∈ pa ++ '?' :: q, x ≠ '#' := by
      intro x hx
      rcases List.mem_append.1 hx with h | h
      · exact (hp2 x h).2
      · rcases List.mem_cons.1 h with h | h
        · rw [h]; decide
        · exact hq2 x h
    rw [splitAtChar_no '#' (pa ++ '?' :: q) hnh]
    rw [show ((pa ++ '?' :: q, ([] : Str)) : Str × Str).1 = pa ++ '?' :: q from rfl]
    rw [splitAtChar_mid '?' pa q hpq]

theorem urlparse_shape (s v pa q ds : Str)
    (hs1 : s ≠ []) (hs2 : s.all schemeChar = true)
    (hs3 : (s.headD ' ').isAlpha = true) (hs4 : lowerStr s = s)
    (hv2 : ∀ c ∈ v, c ≠ '/' ∧ c ≠ '?' ∧ c ≠ '#')
    (hp1 : pa = [] ∨ pa.take 1 = ['/'])
    (hp2 : ∀ c ∈ pa, c ≠ '?' ∧ c ≠ '#')
    (hp3 : ';' ∉ pa)
    (hq2 : ∀ c ∈ q, c ≠ '#') :
    urlparse (s ++ ':' :: '/' :: '/' :: (v ++ pa ++ (if q ≠ [] then '?' :: q else []))) ds
      = ⟨s, v, pa, [], q, []⟩ := by
  rw [urlparse]
  rw [urlsplit_shape s v pa q ds hs1 hs2 hs3 hs4 hv2 hp1 hp2 hq2]
  split
  · rw [show (⟨s, v, pa, [], q, []⟩ : UrlParts).path = pa from rfl,
      splitparams_no_semi pa hp3]
  · rfl

theorem usesRelative_sub_usesNetloc : ∀ x ∈ usesRelative, x ∈ usesNetloc := by decide

theorem urljoin_fixpoint (base s v pa q : Str)
    (hs1 : s ≠ []) (hs2 : s.all schemeChar = true)
    (hs3 : (s.headD ' ').isAlpha = true) (hs4 : lowerStr s = s)
    (hv1 : v ≠ [])
    (hv2 : ∀ c ∈ v, c ≠ '/' ∧ c ≠ '?' ∧ c ≠ '#')
    (hp1 : pa = [] ∨ pa.take 1 = ['/'])
    (hp2 : ∀ c ∈ pa, c ≠ '?' ∧ c ≠ '#')
    (hp3 : ';' ∉ pa)
    (hq2 : ∀ c ∈ q, c ≠ '#') :
    urljoin base (s ++ ':' :: '/' :: '/' :: (v ++ pa ++ (if q ≠ [] then '?' :: q else [])))
      = s ++ ':' :: '/' :: '/' :: (v ++ pa ++ (if q ≠ [] then '?' :: q else [])) := by
  have hparse : ∀ ds, urlparse
      (s ++ ':' :: '/' :: '/' :: (v ++ pa ++ (if q ≠ [] then '?' :: q else []))) ds
      = ⟨s, v, pa, [], q, []⟩ :=
    fun ds => urlparse_shape s v pa q ds hs1 hs2 hs3 hs4 hv2 hp1 hp2 hp3 hq2
  have hwne : s ++ ':' :: '/' :: '/' :: (v ++ pa ++ (if q ≠ [] then '?' :: q else [])) ≠ [] := by
    cases s with
    | nil => exact absurd rfl hs1
    | cons a t => simp
  simp only [urljoin]
  by_cases hb : base = []
  · rw [if_pos hb]
  · rw [if_neg hb, if_neg hwne, hparse ((urlparse base []).scheme)]
    by_cases hrel : (⟨s, v, pa, [], q, []⟩ : UrlParts).scheme ≠ (urlparse base []).scheme ∨
        (⟨s, v, pa, [], q, []⟩ : UrlParts).scheme ∉ usesRelative
    · rw [if_pos hrel]
    · rw [if_neg hrel]
      push_neg at hrel
      have hin : s ∈ usesNetloc := usesRelative_sub_usesNetloc s hrel.2
      rw [if_pos ⟨hin, hv1⟩]
      show urlunparse ⟨s, v, pa, [], q, []⟩ = _
      rw [urlunparse]
      dsimp only
      rw [if_neg (fun h => h rfl)]
      simp only [urlunsplit]
      rw [if_pos (Or.inl hv1)]
      have hinner : ¬(pa ≠ [] ∧ pa.take 1 ≠ ['/']) := by
        rcases hp1 with h | h
        · simp [h]
        · exact fun hx => hx.2 h
      rw [if_neg hinner, if_pos hs1]
      by_cases hqe : q = []
      · rw [if_neg (show ¬(([] : Str) ≠ []) from fun h => h rfl),
          if_neg (show ¬(q ≠ []) from fun h => h hqe)]
        simp [hqe]
      · rw [if_neg (show ¬(([] : Str) ≠ []) from fun h => h rfl),
          if_pos (show q ≠ [] from hqe)]
        simp [List.append_assoc, hqe]

theorem normalize_fixpoint (base s v pa q : Str)
    (hs1 : s ≠ []) (hs2 : s.all schemeChar = true)
    (hs3 : (s.headD ' ').isAlpha = true) (hs4 : lowerStr s = s)
    (hv1 : v ≠ [])
    (hv2 : ∀ c ∈ v, c ≠ '/' ∧ c ≠ '?' ∧ c ≠ '#')
    (hp1 : pa = [] ∨ pa.take 1 = ['/'])
    (hp2 : ∀ c ∈ pa, c ≠ '?' ∧ c ≠ '#')
    (hp3 : ';' ∉ pa)
    (hq2 : ∀ c ∈ q, c ≠ '#')
    (hw : rstripSlash (s ++ ':' :: '/' :: '/' :: (v ++ pa ++ (if q ≠ [] then '?' :: q else [])))
        = s ++ ':' :: '/' :: '/' :: (v ++ pa ++ (if q ≠ [] then '?' :: q else []))) :
    normalize_url base (s ++ ':' :: '/' :: '/' :: (v ++ pa ++ (if q ≠ [] then '?' :: q else [])))
      = s ++ ':' :: '/' :: '/' :: (v ++ pa ++ (if q ≠ [] then '?' :: q else [])) := by
  simp only [normalize_url]
  rw [urljoin_fixpoint base s v pa q hs1 hs2 hs3 hs4 hv1 hv2 hp1 hp2 hp3 hq2]
  rw [urlparse_shape s v pa q [] hs1 hs2 hs3 hs4 hv2 hp1 hp2 hp3 hq2]
  dsimp only
  have hassoc : s ++ ':' :: '/' :: '/' :: v ++ pa ++ (if q ≠ [] then '?' :: q else [])
      = s ++ ':' :: '/' :: '/' :: (v ++ pa ++ (if q ≠ [] then '?' :: q else [])) := by
    simp [List.append_assoc]
  rw [hassoc, hw]

theorem urlparse_path_eq (url ds : Str) (h : ';' ∉ (urlsplit url ds).path) :
    (urlparse url ds).path = (urlsplit url ds).path := by
  rw [urlparse]
  split
  · dsimp only
    rw [splitparams_no_semi _ h]
  · rfl

theorem splitNetloc_cases (rest : Str) :
    splitNetloc rest = ([], rest) ∨ ∃ r, rest = '/' :: '/' :: r := by
  have h := splitNetloc.eq_def rest
  split at h
  · next r => exact Or.inr ⟨r, rfl⟩
  · exact Or.inl h

theorem urlsplit_path_head (url ds : Str) (hN : (urlsplit url ds).netloc ≠ []) :
    (urlsplit url ds).path = [] ∨ (urlsplit url ds).path.take 1 = ['/'] := by
  rcases splitNetloc_cases (splitScheme url ds).2 with h | ⟨r, hr⟩
  · exfalso
    apply hN
    show (splitNetloc (splitScheme url ds).2).1 = []
    rw [h]
  · have hpath : (urlsplit url ds).path =
        (((splitNetloc (splitScheme url ds).2).2.takeWhile (· ≠ '#')).takeWhile (· ≠ '?')) :=
      rfl
    rw [hpath, hr, splitNetloc_slash]
    cases hD : r.dropWhile (fun c => decide (c ≠ '/' ∧ c ≠ '?' ∧ c ≠ '#')) with
    | nil =>
      left
      rfl
    | cons a t =>
      have ha := dropWhile_head_not _ _ _ _ hD
      have hna : ¬(a ≠ '/' ∧ a ≠ '?' ∧ a ≠ '#') := by simpa using ha
      have ha3 : a = '/' ∨ a = '?' ∨ a = '#' := by tauto
      dsimp only
      rcases ha3 with h | h | h
      · right
        rw [h, List.takeWhile_cons_of_pos (by decide), List.takeWhile_cons_of_pos (by decide)]
        rfl
      · left
        rw [h, List.takeWhile_cons_of_pos (by decide), List.takeWhile_cons_of_neg (by decide)]
      · left
        rw [h, List.takeWhile_cons_of_neg (by decide)]
        rfl

/-- **C4** (amended).  `normalize_url` is idempotent on every input whose
join against the base URL parses with a nonempty scheme and netloc, whose
parsed path contains no `;`, and whose query string is empty or does not
consist of slashes only: `normalize_url base (normalize_url base u) =
normalize_url base u`.  The unrestricted idempotence stated by the spec is
refuted by `normalize_idem_counterexample`. -/
theorem normalize_url_idem (base u : Str)
    (hσ : (urlsplit (urljoin base u) []).scheme ≠ [])
    (hN : (urlsplit (urljoin base u) []).netloc ≠ [])
    (hq : (urlsplit (urljoin base u) []).query = [] ∨
      rstripSlash (urlsplit (urljoin base u) []).query ≠ [])
    (hsemi : ';' ∉ (urlsplit (urljoin base u) []).path) :
    normalize_url base (normalize_url base u) = normalize_url base u := by
  have qe := urlparse_eq_split (urljoin base u) []
  have hsf := urlparse_scheme_facts (urljoin base u) (by rw [qe.1]; exact hσ)
  rw [qe.1] at hsf
  have hv2 := urlsplit_netloc_mem (urljoin base u) []
  have hp2 := urlsplit_path_mem (urljoin base u) []
  have hq2 := urlsplit_query_mem (urljoin base u) []
  have hp1 := urlsplit_path_head (urljoin base u) [] hN
  have hm : normalize_url base u = rstripSlash ((urlsplit (urljoin base u) []).scheme
      ++ ':' :: '/' :: '/' :: ((urlsplit (urljoin base u) []).netloc
      ++ (urlsplit (urljoin base u) []).path
      ++ (if (urlsplit (urljoin base u) []).query ≠ []
          then '?' :: (urlsplit (urljoin base u) []).query else []))) := by
    simp only [normalize_url]
    rw [qe.1, qe.2.1, qe.2.2.1, urlparse_path_eq _ _ hsemi]
    simp [List.append_assoc]
  rw [hm]
  generalize hU : urlsplit (urljoin base u) [] = S at hσ hN hq hsemi hsf hv2 hp2 hq2 hp1 ⊢
  obtain ⟨s, v, pa, pr, q, fr⟩ := S
  dsimp only at hσ hN hq hsemi hsf hv2 hp2 hq2 hp1 ⊢
  have hvstrip : rstripSlash v = v := rstripSlash_all_ne v (fun c hc => (hv2 c hc).1)
  have hfixed : rstripSlash (s ++ ':' :: '/' :: '/' :: v) = s ++ ':' :: '/' :: '/' :: v := by
    rw [show s ++ ':' :: '/' :: '/' :: v = (s ++ [':', '/', '/']) ++ v from by simp,
      rstripSlash_eq_append _ v (by rw [hvstrip]; exact hN), hvstrip]
  by_cases hqe : q = []
  · subst hqe
    have hred : (v ++ pa ++ (if ([] : Str) ≠ [] then '?' :: ([] : Str) else [])) = v ++ pa := by
      simp
    rw [hred]
    by_cases hpe : rstripSlash pa = []
    · have h1 : rstripSlash (s ++ ':' :: '/' :: '/' :: (v ++ pa))
          = s ++ ':' :: '/' :: '/' :: v := by
        rw [show s ++ ':' :: '/' :: '/' :: (v ++ pa)
            = (s ++ ':' :: '/' :: '/' :: v) ++ pa from by simp,
          rstripSlash_append_nil _ pa hpe]
        exact hfixed
      rw [h1]
      have hfix := normalize_fixpoint base s v [] [] hσ hsf.1 hsf.2.1 hsf.2.2 hN hv2
        (Or.inl rfl) (fun c hc => absurd hc (List.not_mem_nil c)) (List.not_mem_nil ';')
        (fun c hc => absurd hc (List.not_mem_nil c)) (by simpa using hfixed)
      simpa using hfix
    · have hpane : pa ≠ [] := fun h => hpe (by rw [h]; rfl)
      have htak : pa.take 1 = ['/'] := by
        rcases hp1 with h | h
        · exact absurd h hpane
        · exact h
      have hp1' : rstripSlash pa = [] ∨ (rstripSlash pa).take 1 = ['/'] :=
        Or.inr (by rw [prefix_take_one _ _ (rstripSlash_isPrefix pa) hpe]; exact htak)
      have hp2' : ∀ c ∈ rstripSlash pa, c ≠ '?' ∧ c ≠ '#' :=
        fun c hc => hp2 c ((rstripSlash_sublist pa).mem hc)
      have hp3' : ';' ∉ rstripSlash pa := fun hc => hsemi ((rstripSlash_sublist pa).mem hc)
      have h1 : rstripSlash (s ++ ':' :: '/' :: '/' :: (v ++ pa))
          = s ++ ':' :: '/' :: '/' :: (v ++ rstripSlash pa) := by
        rw [show s ++ ':' :: '/' :: '/' :: (v ++ pa)
            = (s ++ ':' :: '/' :: '/' :: v) ++ pa from by simp,
          rstripSlash_eq_append _ pa hpe]
        simp [List.append_assoc]
      rw [h1]
      have hw2 : rstripSlash ((s ++ ':' :: '/' :: '/' :: v) ++ rstripSlash pa)
          = (s ++ ':' :: '/' :: '/' :: v) ++ rstripSlash pa := by
        rw [rstripSlash_eq_append _ _ (by rw [rstripSlash_idem]; exact hpe), rstripSlash_idem]
      have hfix := normalize_fixpoint base s v (rstripSlash pa) [] hσ hsf.1 hsf.2.1 hsf.2.2
        hN hv2 hp1' hp2' hp3' (fun c hc => absurd hc (List.not_mem_nil c))
        (by simpa [List.append_assoc] using hw2)
      simpa [List.append_assoc] using hfix
  · have hrq : rstripSlash q ≠ [] := by
      rcases hq with h | h
      · exact absurd h hqe
      · exact h
    rw [if_pos hqe]
    have hrcons : rstripSlash ('?' :: q) = '?' :: rstripSlash q :=
      rstripSlash_cons '?' q (by decide)
    have h1 : rstripSlash (s ++ ':' :: '/' :: '/' :: (v ++ pa ++ '?' :: q))
        = s ++ ':' :: '/' :: '/' :: (v ++ pa ++ '?' :: rstripSlash q) := by
      rw [show s ++ ':' :: '/' :: '/' :: (v ++ pa ++ '?' :: q)
          = (s ++ ':' :: '/' :: '/' :: (v ++ pa)) ++ '?' :: q from by simp [List.append_assoc],
        rstripSlash_eq_append _ ('?' :: q) (by rw [hrcons]; simp), hrcons]
      simp [List.append_assoc]
    rw [h1]
    have hq2' : ∀ c ∈ rstripSlash q, c ≠ '#' :=
      fun c hc => hq2 c ((rstripSlash_sublist q).mem hc)
    have hrcons2 : rstripSlash ('?' :: rstripSlash q) = '?' :: rstripSlash q := by
      rw [rstripSlash_cons '?' _ (by decide), rstripSlash_idem]
    have hw2 : rstripSlash ((s ++ ':' :: '/' :: '/' :: (v ++ pa)) ++ '?' :: rstripSlash q)
        = (s ++ ':' :: '/' :: '/' :: (v ++ pa)) ++ '?' :: rstripSlash q := by
      rw [rstripSlash_eq_append _ _ (by rw [hrcons2]; simp), hrcons2]
    have hfix := normalize_fixpoint base s v pa (rstripSlash q) hσ hsf.1 hsf.2.1 hsf.2.2
      hN hv2 hp1 hp2 hsemi hq2' (by rw [if_pos hrq]; simpa [List.append_assoc] using hw2)
    rw [if_pos hrq] at hfix
    exact hfix

/-- Witness for `normalize_url_idem`: the side conditions hold and
idempotence follows for the base `http://h` and the URL `http://h/a/b?q=1`. -/
theorem normalize_url_idem_witness :
    ((urlsplit (urljoin "http://h".toList "http://h/a/b?q=1".toList) []).scheme ≠ [] ∧
     (urlsplit (urljoin "http://h".toList "http://h/a/b?q=1".toList) []).netloc ≠ [] ∧
     ((urlsplit (urljoin "http://h".toList "http://h/a/b?q=1".toList) []).query = [] ∨
       rstripSlash (urlsplit (urljoin "http://h".toList "http://h/a/b?q=1".toList) []).query
         ≠ []) ∧
     ';' ∉ (urlsplit (urljoin "http://h".toList "http://h/a/b?q=1".toList) []).path) ∧
    normalize_url "http://h".toList (normalize_url "http://h".toList "http://h/a/b?q=1".toList)
      = normalize_url "http://h".toList "http://h/a/b?q=1".toList :=
  ⟨⟨by decide, by decide, by decide, by decide⟩,
   normalize_url_idem "http://h".toList "http://h/a/b?q=1".toList
     (by decide) (by decide) (by decide) (by decide)⟩

theorem rstripSlash_append_slash (X : Str) : rstripSlash (X ++ ['/']) = rstripSlash X :=
  rstripSlash_append_nil X ['/'] (by decide)

theorem urlunparse_shape (s v pa q f : Str)
    (hs1 : s ≠ []) (hv1 : v ≠ [])
    (hp1 : pa = [] ∨ pa.take 1 = ['/']) :
    urlunparse ⟨s, v, pa, [], q, f⟩
      = s ++ ':' :: '/' :: '/' :: (v ++ pa ++ (if q ≠ [] then '?' :: q else []))
        ++ (if f ≠ [] then '#' :: f else []) := by
  rw [urlunparse]
  dsimp only
  rw [if_neg (fun h => h rfl)]
  simp only [urlunsplit]
  rw [if_pos (Or.inl hv1)]
  have hinner : ¬(pa ≠ [] ∧ pa.take 1 ≠ ['/']) := by
    rcases hp1 with h | h
    · simp [h]
    · exact fun hx => hx.2 h
  rw [if_neg hinner, if_pos hs1]
  by_cases hqe : q = []
  · rw [if_neg (show ¬(q ≠ []) from fun h => h hqe)]
    by_cases hfe : f = []
    · rw [if_neg (show ¬(f ≠ []) from fun h => h hfe)]
      simp [hqe, hfe, List.append_assoc]
    · rw [if_pos (show f ≠ [] from hfe)]
      simp [hqe, hfe, List.append_assoc]
  · rw [if_pos (show q ≠ [] from hqe)]
    by_cases hfe : f = []
    · rw [if_neg (show ¬(f ≠ []) from fun h => h hfe)]
      simp [hqe, hfe, List.append_assoc]
    · rw [if_pos (show f ≠ [] from hfe)]
      simp [hqe, hfe, List.append_assoc]

theorem urlsplit_shape_frag (s v pa q f ds : Str)
    (hs1 : s ≠ []) (hs2 : s.all schemeChar = true)
    (hs3 : (s.headD ' ').isAlpha = true) (hs4 : lowerStr s = s)
    (hv2 : ∀ c ∈ v, c ≠ '/' ∧ c ≠ '?' ∧ c ≠ '#')
    (hp1 : pa = [] ∨ pa.take 1 = ['/'])
    (hp2 : ∀ c ∈ pa, c ≠ '?' ∧ c ≠ '#')
    (hq2 : ∀ c ∈ q, c ≠ '#') :
    urlsplit (s ++ ':' :: '/' :: '/' ::
        (v ++ pa ++ (if q ≠ [] then '?' :: q else []) ++ '#' :: f)) ds
      = ⟨s, v, pa, [], q, f⟩ := by
  have hpq : ∀ x ∈ pa, x ≠ '?' := fun x hx => (hp2 x hx).1
  have hT : ∀ (optq : Str), optq = (if q ≠ [] then '?' :: q else []) →
      (pa ++ optq ++ '#' :: f) = [] ∨
      ∃ a t, (pa ++ optq ++ '#' :: f) = a :: t ∧ (a = '/' ∨ a = '?' ∨ a = '#') := by
    intro optq hoptq
    rcases hp1 with h | h
    · rw [h, List.nil_append]
      by_cases hqe : q = []
      · rw [hoptq, if_neg (fun hx => hx hqe), List.nil_append]
        exact Or.inr ⟨'#', f, rfl, Or.inr (Or.inr rfl)⟩
      · rw [hoptq, if_pos hqe]
        exact Or.inr ⟨'?', q ++ '#' :: f, rfl, Or.inr (Or.inl rfl)⟩
    · cases pa with
      | nil => simp at h
      | cons a t =>
        refine Or.inr ⟨a, t ++ optq ++ '#' :: f, by simp [List.append_assoc], Or.inl ?_⟩
        simpa using h
  have hnh : ∀ x ∈ pa ++ (if q ≠ [] then '?' :: q else []), x ≠ '#' := by
    intro x hx
    rcases List.mem_append.1 hx with h | h
    · exact (hp2 x h).2
    · by_cases hqe : q = []
      · rw [if_neg (fun hy => hy hqe)] at h
        cases h
      · rw [if_pos hqe] at h
        rcases List.mem_cons.1 h with h | h
        · rw [h]; decide
        · exact hq2 x h
  have hassoc : v ++ pa ++ (if q ≠ [] then '?' :: q else []) ++ '#' :: f
      = v ++ (pa ++ (if q ≠ [] then '?' :: q else []) ++ '#' :: f) := by
    simp [List.append_assoc]
  rw [hassoc]
  simp only [urlsplit]
  rw [splitScheme_shape _ _ _ hs1 hs2 hs3 hs4]
  rw [show ((s, '/' :: '/' :: (v ++ (pa ++ (if q ≠ [] then '?' :: q else []) ++ '#' :: f)))
      : Str × Str).2 = '/' :: '/' :: (v ++ (pa ++ (if q ≠ [] then '?' :: q else []) ++ '#' :: f))
    from rfl]
  rw [splitNetloc_shape v (pa ++ (if q ≠ [] then '?' :: q else []) ++ '#' :: f) hv2
    (hT _ rfl)]
  rw [show ((v, pa ++ (if q ≠ [] then '?' :: q else []) ++ '#' :: f) : Str × Str).2
    = pa ++ (if q ≠ [] then '?' :: q else []) ++ '#' :: f from rfl]
  rw [splitAtChar_mid '#' (pa ++ (if q ≠ [] then '?' :: q else [])) f hnh]
  rw [show ((pa ++ (if q ≠ [] then '?' :: q else []), f) : Str × Str).1
    = pa ++ (if q ≠ [] then '?' :: q else []) from rfl]
  by_cases hqe : q = []
  · rw [hqe]
    simp only [ne_eq, not_true_eq_false, if_neg, ite_false, List.append_nil]
    rw [splitAtChar_no '?' pa hpq]
  · rw [if_pos hqe, splitAtChar_mid '?' pa q hpq]

theorem urlparse_shape_frag (s v pa q f ds : Str)
    (hs1 : s ≠ []) (hs2 : s.all schemeChar = true)
    (hs3 : (s.headD ' ').isAlpha = true) (hs4 : lowerStr s = s)
    (hv2 : ∀ c ∈ v, c ≠ '/' ∧ c ≠ '?' ∧ c ≠ '#')
    (hp1 : pa = [] ∨ pa.take 1 = ['/'])
    (hp2 : ∀ c ∈ pa, c ≠ '?' ∧ c ≠ '#')
    (hp3 : ';' ∉ pa)
    (hq2 : ∀ c ∈ q, c ≠ '#') :
    urlparse (s ++ ':' :: '/' :: '/' ::
        (v ++ pa ++ (if q ≠ [] then '?' :: q else []) ++ '#' :: f)) ds
      = ⟨s, v, pa, [], q, f⟩ := by
  rw [urlparse]
  rw [urlsplit_shape_frag s v pa q f ds hs1 hs2 hs3 hs4 hv2 hp1 hp2 hq2]
  split
  · rw [show (⟨s, v, pa, [], q, f⟩ : UrlParts).path = pa from rfl,
      splitparams_no_semi pa hp3]
  · rfl

theorem normalize_shape (base s v pa q : Str)
    (hs1 : s ≠ []) (hs2 : s.all schemeChar = true)
    (hs3 : (s.headD ' ').isAlpha = true) (hs4 : lowerStr s = s)
    (hv1 : v ≠ [])
    (hv2 : ∀ c ∈ v, c ≠ '/' ∧ c ≠ '?' ∧ c ≠ '#')
    (hp1 : pa = [] ∨ pa.take 1 = ['/'])
    (hp2 : ∀ c ∈ pa, c ≠ '?' ∧ c ≠ '#')
    (hp3 : ';' ∉ pa)
    (hq2 : ∀ c ∈ q, c ≠ '#') :
    normalize_url base (s ++ ':' :: '/' :: '/' :: (v ++ pa ++ (if q ≠ [] then '?' :: q else [])))
      = rstripSlash (s ++ ':' :: '/' :: '/' :: (v ++ pa ++ (if q ≠ [] then '?' :: q else []))) := by
  simp only [normalize_url]
  rw [urljoin_fixpoint base s v pa q hs1 hs2 hs3 hs4 hv1 hv2 hp1 hp2 hp3 hq2]
  rw [urlparse_shape s v pa q [] hs1 hs2 hs3 hs4 hv2 hp1 hp2 hp3 hq2]
  dsimp only
  have hassoc : s ++ ':' :: '/' :: '/' :: v ++ pa ++ (if q ≠ [] then '?' :: q else [])
      = s ++ ':' :: '/' :: '/' :: (v ++ pa ++ (if q ≠ [] then '?' :: q else [])) := by
    simp [List.append_assoc]
  rw [hassoc]

theorem normalize_shape_frag (base s v pa q f : Str)
    (hs1 : s ≠ []) (hs2 : s.all schemeChar = true)
    (hs3 : (s.headD ' ').isAlpha = true) (hs4 : lowerStr s = s)
    (hv1 : v ≠ [])
    (hv2 : ∀ c ∈ v, c ≠ '/' ∧ c ≠ '?' ∧ c ≠ '#')
    (hp1 : pa = [] ∨ pa.take 1 = ['/'])
    (hp2 : ∀ c ∈ pa, c ≠ '?' ∧ c ≠ '#')
    (hp3 : ';' ∉ pa)
    (hq2 : ∀ c ∈ q, c ≠ '#') :
    normalize_url base (s ++ ':' :: '/' :: '/' ::
        (v ++ pa ++ (if q ≠ [] then '?' :: q else []) ++ '#' :: f))
      = rstripSlash (s ++ ':' :: '/' :: '/' :: (v ++ pa ++ (if q ≠ [] then '?' :: q else []))) := by
  have hclean : ∀ P : UrlParts, P.scheme = s → P.netloc = v → P.path = pa → P.query = q →
      rstripSlash (P.scheme ++ ':' :: '/' :: '/' :: P.netloc ++ P.path
        ++ (if P.query ≠ [] then '?' :: P.query else []))
      = rstripSlash (s ++ ':' :: '/' :: '/' :: (v ++ pa ++ (if q ≠ [] then '?' :: q else []))) := by
    intro P h1 h2 h3 h4
    rw [h1, h2, h3, h4]
    have hassoc : s ++ ':' :: '/' :: '/' :: v ++ pa ++ (if q ≠ [] then '?' :: q else [])
        = s ++ ':' :: '/' :: '/' :: (v ++ pa ++ (if q ≠ [] then '?' :: q else [])) := by
      simp [List.append_assoc]
    rw [hassoc]
  have hwne : s ++ ':' :: '/' :: '/' ::
      (v ++ pa ++ (if q ≠ [] then '?' :: q else []) ++ '#' :: f) ≠ [] := by
    cases s with
    | nil => exact absurd rfl hs1
    | cons a t => simp
  simp only [normalize_url, urljoin]
  by_cases hb : base = []
  · rw [if_pos hb, urlparse_shape_frag s v pa q f [] hs1 hs2 hs3 hs4 hv2 hp1 hp2 hp3 hq2]
    exact hclean _ rfl rfl rfl rfl
  · rw [if_neg hb, if_neg hwne,
      urlparse_shape_frag s v pa q f ((urlparse base []).scheme) hs1 hs2 hs3 hs4 hv2 hp1 hp2
        hp3 hq2]
    by_cases hrel : (⟨s, v, pa, [], q, f⟩ : UrlParts).scheme ≠ (urlparse base []).scheme ∨
        (⟨s, v, pa, [], q, f⟩ : UrlParts).scheme ∉ usesRelative
    · rw [if_pos hrel,
        urlparse_shape_frag s v pa q f [] hs1 hs2 hs3 hs4 hv2 hp1 hp2 hp3 hq2]
      exact hclean _ rfl rfl rfl rfl
    · rw [if_neg hrel]
      push_neg at hrel
      have hin : s ∈ usesNetloc := usesRelative_sub_usesNetloc s hrel.2
      rw [if_pos ⟨hin, hv1⟩]
      dsimp only
      rw [urlunparse_shape s v pa q f hs1 hv1 hp1]
      by_cases hfe : f = []
      · rw [if_neg (show ¬(f ≠ []) from fun h => h hfe), List.append_nil,
          urlparse_shape s v pa q [] hs1 hs2 hs3 hs4 hv2 hp1 hp2 hp3 hq2]
        exact hclean _ rfl rfl rfl rfl
      · rw [if_pos (show f ≠ [] from hfe)]
        have hassoc2 : s ++ ':' :: '/' :: '/' :: (v ++ pa ++ (if q ≠ [] then '?' :: q else []))
            ++ '#' :: f
            = s ++ ':' :: '/' :: '/' ::
              (v ++ pa ++ (if q ≠ [] then '?' :: q else []) ++ '#' :: f) := by
          simp [List.append_assoc]
        rw [hassoc2,
          urlparse_shape_frag s v pa q f [] hs1 hs2 hs3 hs4 hv2 hp1 hp2 hp3 hq2]
        exact hclean _ rfl rfl rfl rfl

/-- **C3** (amended).  For well-formed absolute URLs
`scheme://netloc path [?query]` (nonempty scheme and netloc, path empty or
slash-initial, the components free of the delimiter characters that would
be reinterpreted on reparsing), `normalize_url` is invariant under
appending a fragment `#f` and invariant under appending a trailing slash.
The unrestricted trailing-slash half of the spec claim is refuted by
`normalize_trailing_slash_counterexample` (the slash before a query string
survives normalization). -/
theorem normalize_fragment_slash_invariance (base s v pa q f : Str)
    (hs1 : s ≠ []) (hs2 : s.all schemeChar = true)
    (hs3 : (s.headD ' ').isAlpha = true) (hs4 : lowerStr s = s)
    (hv1 : v ≠ [])
    (hv2 : ∀ c ∈ v, c ≠ '/' ∧ c ≠ '?' ∧ c ≠ '#')
    (hp1 : pa = [] ∨ pa.take 1 = ['/'])
    (hp2 : ∀ c ∈ pa, c ≠ '?' ∧ c ≠ '#')
    (hp3 : ';' ∉ pa)
    (hq2 : ∀ c ∈ q, c ≠ '#') :
    normalize_url base (s ++ ':' :: '/' :: '/' ::
        (v ++ pa ++ (if q ≠ [] then '?' :: q else []) ++ '#' :: f))
      = normalize_url base (s ++ ':' :: '/' :: '/' ::
        (v ++ pa ++ (if q ≠ [] then '?' :: q else []))) ∧
    normalize_url base ((s ++ ':' :: '/' :: '/' ::
        (v ++ pa ++ (if q ≠ [] then '?' :: q else []))) ++ ['/'])
      = normalize_url base (s ++ ':' :: '/' :: '/' ::
        (v ++ pa ++ (if q ≠ [] then '?' :: q else []))) := by
  constructor
  · rw [normalize_shape_frag base s v pa q f hs1 hs2 hs3 hs4 hv1 hv2 hp1 hp2 hp3 hq2,
      normalize_shape base s v pa q hs1 hs2 hs3 hs4 hv1 hv2 hp1 hp2 hp3 hq2]
  · rw [normalize_shape base s v pa q hs1 hs2 hs3 hs4 hv1 hv2 hp1 hp2 hp3 hq2]
    by_cases hqe : q = []
    · subst hqe
      have hp1' : pa ++ ['/'] = [] ∨ (pa ++ ['/']).take 1 = ['/'] := by
        cases pa with
        | nil => exact Or.inr rfl
        | cons a t =>
          right
          rcases hp1 with h | h
          · exact absurd h (by simp)
          · simp only [List.take, List.cons_append] at h ⊢
            exact h
      have hp2' : ∀ c ∈ pa ++ ['/'], c ≠ '?' ∧ c ≠ '#' := by
        intro c hc
        rcases List.mem_append.1 hc with h | h
        · exact hp2 c h
        · rcases List.mem_cons.1 h with h | h
          · rw [h]; exact ⟨by decide, by decide⟩
          · cases h
      have hp3' : ';' ∉ pa ++ ['/'] := by
        intro hc
        rcases List.mem_append.1 hc with h | h
        · exact hp3 h
        · rcases List.mem_cons.1 h with h | h
          · cases h
          · cases h
      have hlhs := normalize_shape base s v (pa ++ ['/']) [] hs1 hs2 hs3 hs4 hv1 hv2
        hp1' hp2' hp3' (fun c hc => absurd hc (List.not_mem_nil c))
      have harg : (s ++ ':' :: '/' :: '/' ::
          (v ++ pa ++ (if ([] : Str) ≠ [] then '?' :: ([] : Str) else []))) ++ ['/']
          = s ++ ':' :: '/' :: '/' ::
            (v ++ (pa ++ ['/']) ++ (if ([] : Str) ≠ [] then '?' :: ([] : Str) else [])) := by
        simp [List.append_assoc]
      rw [harg, hlhs]
      have harg2 : s ++ ':' :: '/' :: '/' ::
          (v ++ (pa ++ ['/']) ++ (if ([] : Str) ≠ [] then '?' :: ([] : Str) else []))
          = (s ++ ':' :: '/' :: '/' ::
            (v ++ pa ++ (if ([] : Str) ≠ [] then '?' :: ([] : Str) else []))) ++ ['/'] := by
        simp [List.append_assoc]
      rw [harg2, rstripSlash_append_slash]
    · have hq2' : ∀ c ∈ q ++ ['/'], c ≠ '#' := by
        intro c hc
        rcases List.mem_append.1 hc with h | h
        · exact hq2 c h
        · rcases List.mem_cons.1 h with h | h
          · rw [h]; decide
          · cases h
      have hlhs := normalize_shape base s v pa (q ++ ['/']) hs1 hs2 hs3 hs4 hv1 hv2
        hp1 hp2 hp3 hq2'
      rw [if_pos (show q ++ ['/'] ≠ [] from by simp)] at hlhs
      rw [if_pos hqe]
      have harg : (s ++ ':' :: '/' :: '/' :: (v ++ pa ++ '?' :: q)) ++ ['/']
          = s ++ ':' :: '/' :: '/' :: (v ++ pa ++ '?' :: (q ++ ['/'])) := by
        simp [List.append_assoc]
      rw [harg, hlhs]
      have harg2 : s ++ ':' :: '/' :: '/' :: (v ++ pa ++ '?' :: (q ++ ['/']))
          = (s ++ ':' :: '/' :: '/' :: (v ++ pa ++ '?' :: q)) ++ ['/'] := by
        simp [List.append_assoc]
      rw [harg2, rstripSlash_append_slash]

/-- Witness for `normalize_fragment_slash_invariance` at the URL
`http://h/a?x=1`, the fragment `frag` and a trailing slash. -/
theorem normalize_fragment_slash_invariance_witness :
    normalize_url "http://h".toList ("http".toList ++ ':' :: '/' :: '/' ::
        ("h".toList ++ "/a".toList
          ++ (if "x=1".toList ≠ [] then '?' :: "x=1".toList else [])
          ++ '#' :: "frag".toList))
      = normalize_url "http://h".toList ("http".toList ++ ':' :: '/' :: '/' ::
        ("h".toList ++ "/a".toList
          ++ (if "x=1".toList ≠ [] then '?' :: "x=1".toList else []))) ∧
    normalize_url "http://h".toList (("http".toList ++ ':' :: '/' :: '/' ::
        ("h".toList ++ "/a".toList
          ++ (if "x=1".toList ≠ [] then '?' :: "x=1".toList else []))) ++ ['/'])
      = normalize_url "http://h".toList ("http".toList ++ ':' :: '/' :: '/' ::
        ("h".toList ++ "/a".toList
          ++ (if "x=1".toList ≠ [] then '?' :: "x=1".toList else []))) :=
  normalize_fragment_slash_invariance "http://h".toList "http".toList "h".toList
    "/a".toList "x=1".toList "frag".toList (by decide) (by decide) (by decide) (by decide)
    (by decide) (by decide) (by decide) (by decide) (by decide) (by decide)
